import Mathlib

/-!
Verification of the CourseNode prerequisite extractor
(`scripts/data_processor.py`) against its specification.

Strings are modelled as `List Char`; each regular-expression literal of the
source is translated into an explicit, executable matcher with the same
leftmost / greedy / lazy semantics.  `\s` and `\d` are the ASCII whitespace
and digit classes, `str.upper`/`str.lower` the ASCII case maps, matching the
inputs the program processes.
-/

abbrev Str := List Char

/-- ASCII whitespace, the characters matched by `\s`. -/
def isWsC (c : Char) : Bool :=
  c = ' ' || c = '\t' || c = '\n' || c = '\x0d' || c = '\x0b' || c = '\x0c'

/-- ASCII digit, the characters matched by `\d`. -/
def isDigitC (c : Char) : Bool := '0' ≤ c && c ≤ '9'

/-- ASCII lower-casing, used for case-insensitive matching. -/
def toLowerA (c : Char) : Char :=
  if 'A' ≤ c && c ≤ 'Z' then Char.ofNat (c.toNat + 32) else c

/-- ASCII upper-casing, the model of `str.upper()`. -/
def toUpperA (c : Char) : Char :=
  if 'a' ≤ c && c ≤ 'z' then Char.ofNat (c.toNat - 32) else c

/-- `str.strip()`: drop ASCII whitespace from both ends. -/
def stripWs (s : Str) : Str :=
  ((s.dropWhile isWsC).reverse.dropWhile isWsC).reverse

/-- Match a literal (given in lower case) case-insensitively at the head,
returning the rest of the input. -/
def matchLitCI : Str → Str → Option Str
  | [], l => some l
  | _ :: _, [] => none
  | p :: ps, c :: cs => if toLowerA c = p then matchLitCI ps cs else none

def ciStarts (pat : Str) (l : Str) : Bool := (matchLitCI pat l).isSome

/-- Matcher for `<LIT>\s*(\d{4})` at the head of the input (the shape of the
`COMP\s*(\d{4})` and `SYSC\s*\d{4}` regexes): returns the total match length
and the four captured digit characters. -/
def codeLitAt (pat : Str) (l : Str) : Option (Nat × Str) :=
  match matchLitCI pat l with
  | none => none
  | some r =>
    let w := r.takeWhile isWsC
    let rest := r.dropWhile isWsC
    let ds := rest.take 4
    if ds.length = 4 ∧ ds.all isDigitC then some (pat.length + w.length + 4, ds)
    else none

/-- `COMP\s*(\d{4})` (case-insensitive) at the head of the input. -/
def compAt (l : Str) : Option (Nat × Str) := codeLitAt ("comp".toList) l

/-- Leftmost match of `f`, scanning every start position. -/
def searchFirst (f : Str → Option α) : Str → Option α
  | [] => f []
  | c :: cs =>
    match f (c :: cs) with
    | some x => some x
    | none => searchFirst f cs

/-- `normalize_course_code`: leftmost `COMP\s*(\d{4})` match yields the
canonical spaced form, otherwise the upper-cased stripped input. -/
def normalize_course_code (s : Str) : Str :=
  match searchFirst compAt s with
  | some x => ("COMP ".toList) ++ x.2
  | none => stripWs (s.map toUpperA)

/-- `(\d)(\d{3})` at the head of the input: four consecutive digits, returning
the first. -/
def levelAt (l : Str) : Option Char :=
  match l with
  | [] => none
  | d :: rest =>
    if isDigitC d ∧ (rest.take 3).length = 3 ∧ (rest.take 3).all isDigitC
    then some d else none

/-- `extract_level`: first digit of the leftmost four-digit run, times 1000;
1000 when absent. -/
def extract_level (code : Str) : Nat :=
  match searchFirst levelAt code with
  | some d => (d.toNat - 48) * 1000
  | none => 1000

/-- Does the string contain `or` (case-insensitively) as a substring? -/
def containsOr : Str → Bool
  | [] => false
  | [_] => false
  | a :: b :: rest => (toLowerA a = 'o' && toLowerA b = 'r') || containsOr (b :: rest)

/-- `\([^)]*(?:or|OR)[^)]*\)` at the head of the input: an opening paren whose
first closing paren comes after an occurrence of `or`; returns the match
length. -/
def orGroupAt (l : Str) : Option Nat :=
  match l with
  | [] => none
  | c :: rest =>
    if c = '(' then
      let q := rest.findIdx (fun d => d = ')')
      if q < rest.length then
        (if containsOr (rest.take q) then some (q + 2) else none)
      else none
    else none

/-- Non-overlapping leftmost scan (the semantics of `re.finditer`), with
(start, end) positions; `fuel` bounds the recursion and any
`fuel ≥ length` is enough. -/
def scanPF (f : Str → Option Nat) : Nat → Str → Nat → List (Nat × Nat)
  | 0, _, _ => []
  | _ + 1, [], _ => []
  | fuel + 1, c :: cs, i =>
    match f (c :: cs) with
    | some n => (i, i + n) :: scanPF f fuel (cs.drop (n - 1)) (i + n)
    | none => scanPF f fuel cs (i + 1)

def compAtLen (l : Str) : Option Nat := (compAt l).map (fun x => x.1)

/-- All `COMP\s*\d{4}` occurrences of the span, as (start, end) positions. -/
def codeMatches (s : Str) : List (Nat × Nat) := scanPF compAtLen s.length s 0

/-- The substring of `s` from position `a` (inclusive) to `b` (exclusive). -/
def sliceStr (s : Str) (a b : Nat) : Str := (s.drop a).take (b - a)

/-- All parenthesized `or`-groups of the span (spans of
`\(([^)]*(?:or|OR)[^)]*)\)` matches). -/
def orGroups (s : Str) : List (Nat × Nat) := scanPF orGroupAt s.length s 0

/-- The normalized `COMP` codes found inside one group's parentheses, in
order and with multiplicity (`codes_in_group` in the source). -/
def groupCodes (s : Str) (gs ge : Nat) : List Str :=
  let inner := sliceStr s (gs + 1) (ge - 1)
  (codeMatches inner).map (fun m => normalize_course_code (sliceStr inner m.1 m.2))

/-- `or_group_info`: every group's span together with its code list. -/
def groupsInfo (s : Str) : List (Nat × Nat × List Str) :=
  (orGroups s).map (fun g => (g.1, g.2, groupCodes s g.1 g.2))

inductive Logic where
  | AND : Logic
  | OR : Logic
deriving DecidableEq, Inhabited

structure Prereq where
  code : Str
  logic : Logic
deriving DecidableEq

/-- The membership test of the source's group loop: the first group whose span
contains the position and whose code list contains the code decides the tag
(`OR` exactly when the group holds more than one code occurrence);
no such group means `AND`. -/
def lookupTag : List (Nat × Nat × List Str) → Nat → Str → Logic
  | [], _, _ => .AND
  | (gs, ge, codes) :: rest, pos, code =>
    if gs ≤ pos ∧ pos < ge ∧ code ∈ codes then
      (if 1 < codes.length then .OR else .AND)
    else lookupTag rest pos code

/-- The general-path scan over all code occurrences, skipping already-seen
codes and tagging each first occurrence by its containing group. -/
def gpGo (s : Str) (groups : List (Nat × Nat × List Str)) :
    List (Nat × Nat) → List Str → List Prereq
  | [], _ => []
  | m :: ms, seen =>
    let code := normalize_course_code (sliceStr s m.1 m.2)
    if code ∈ seen then gpGo s groups ms seen
    else ⟨code, lookupTag groups m.1 code⟩ :: gpGo s groups ms (code :: seen)

def generalPath (s : Str) : List Prereq :=
  gpGo s (groupsInfo s) (codeMatches s) []

/-- `\s+` at the head: one or more whitespace characters. -/
def wsPlus (l : Str) : Option Str :=
  if l.takeWhile isWsC = [] then none else some (l.dropWhile isWsC)

/-- `\d{4}` at the head. -/
def dig4 (l : Str) : Option Str :=
  if (l.take 4).length = 4 ∧ (l.take 4).all isDigitC then some (l.drop 4) else none

/-- `COMP\s+\d{4}\s+(?:or|OR)\s+COMP\s+\d{4}` (case-insensitive) at the head. -/
def simpleOrAt (l : Str) : Bool :=
  ((((((((matchLitCI ("comp".toList) l).bind wsPlus).bind dig4).bind wsPlus).bind
      (fun r => matchLitCI ("or".toList) r)).bind wsPlus).bind
      (fun r => matchLitCI ("comp".toList) r)).bind wsPlus).bind dig4 |>.isSome

/-- `re.search` as existence of a match at some start position. -/
def existsMatch (f : Str → Bool) : Str → Bool
  | [] => f []
  | c :: cs => f (c :: cs) || existsMatch f cs

def hasSimpleOr (s : Str) : Bool := existsMatch simpleOrAt s

def hasParenOr (s : Str) : Bool := existsMatch (fun l => (orGroupAt l).isSome) s

/-- The logic-group resolver on a cleaned span: the simple-disjunction path
when un-parenthesized `COMP or COMP` occurs and no parenthesized `or`-group
does, the general path otherwise. -/
def resolveSpan (s : Str) : List Prereq :=
  if hasSimpleOr s ∧ ¬ hasParenOr s then
    (codeMatches s).map (fun m => ⟨normalize_course_code (sliceStr s m.1 m.2), Logic.OR⟩)
  else generalPath s

/-- `re.sub` with constant-strategy matchers: at each position try the
matcher; on a match emit its replacement and continue after the match
(matchers always consume at least one character).  `fuel ≥ length` suffices. -/
def substF (f : Str → Option (Nat × Str)) : Nat → Str → Str
  | 0, _ => []
  | _ + 1, [] => []
  | fuel + 1, c :: cs =>
    match f (c :: cs) with
    | some x => x.2 ++ substF f fuel (cs.drop (x.1 - 1))
    | none => c :: substF f fuel cs

def subst (f : Str → Option (Nat × Str)) (l : Str) : Str := substF f l.length l

/-- The character class `[^,and)]` under `IGNORECASE`. -/
def notMG (c : Char) : Bool :=
  ¬ (toLowerA c = ',' || toLowerA c = 'a' || toLowerA c = 'n' ||
     toLowerA c = 'd' || toLowerA c = ')')

/-- `\s+with\s+a\s+minimum\s+grade\s+(?:of\s+)?[^,and)]+(?=\s*[,and)]|$)`
(case-insensitive) at the head; the lookahead always holds at the greedy
endpoint, and the consumed length is the same whether the optional `of\s+`
or the following class run absorbs the boundary, so only the total length
matters.  Replacement is empty. -/
def mgAt (l : Str) : Option (Nat × Str) :=
  match wsPlus l with
  | none => none
  | some l1 =>
    match matchLitCI ("with".toList) l1 with
    | none => none
    | some l2 =>
      match wsPlus l2 with
      | none => none
      | some l3 =>
        match matchLitCI ("a".toList) l3 with
        | none => none
        | some l4 =>
          match wsPlus l4 with
          | none => none
          | some l5 =>
            match matchLitCI ("minimum".toList) l5 with
            | none => none
            | some l6 =>
              match wsPlus l6 with
              | none => none
              | some l7 =>
                match matchLitCI ("grade".toList) l7 with
                | none => none
                | some l8 =>
                  match wsPlus l8 with
                  | none => none
                  | some l9 =>
                    let tryOf : Option Str :=
                      match matchLitCI ("of".toList) l9 with
                      | none => none
                      | some lo => wsPlus lo
                    let chunk : Str → Option Nat := fun m =>
                      let ch := m.takeWhile notMG
                      if ch = [] then none else some (l.length - m.length + ch.length)
                    match tryOf with
                    | some m =>
                      (match chunk m with
                       | some n => some (n, [])
                       | none =>
                         match chunk l9 with
                         | some n => some (n, [])
                         | none => none)
                    | none =>
                      match chunk l9 with
                      | some n => some (n, [])
                      | none => none

/-- `\.+$`: a trailing run of periods at the very end of the string (or just
before a final newline).  Replacement is empty. -/
def dotEndAt (l : Str) : Option (Nat × Str) :=
  let ds := l.takeWhile (fun c => c = '.')
  if ds = [] then none
  else
    match l.drop ds.length with
    | [] => some (ds.length, [])
    | ['\n'] => some (ds.length, [])
    | _ => none

/-- `SYSC\s*\d{4}` (case-insensitive); replacement is empty. -/
def syscSub (l : Str) : Option (Nat × Str) :=
  match codeLitAt ("sysc".toList) l with
  | some x => some (x.1, [])
  | none => none

/-- `\s*,\s*,` replaced by `,`. -/
def commaCommaAt (l : Str) : Option (Nat × Str) :=
  let w1 := l.takeWhile isWsC
  match l.drop w1.length with
  | ',' :: r1 =>
    let w2 := r1.takeWhile isWsC
    (match r1.drop w2.length with
     | ',' :: _ => some (w1.length + 1 + w2.length + 1, [','])
     | _ => none)
  | _ => none

/-- `\s*,\s*\)` replaced by `)`. -/
def commaCloseAt (l : Str) : Option (Nat × Str) :=
  let w1 := l.takeWhile isWsC
  match l.drop w1.length with
  | ',' :: r1 =>
    let w2 := r1.takeWhile isWsC
    (match r1.drop w2.length with
     | ')' :: _ => some (w1.length + 1 + w2.length + 1, [')'])
     | _ => none)
  | _ => none

/-- `\(\s*,` replaced by `(`. -/
def openCommaAt (l : Str) : Option (Nat × Str) :=
  match l with
  | '(' :: r1 =>
    let w := r1.takeWhile isWsC
    (match r1.drop w.length with
     | ',' :: _ => some (1 + w.length + 1, ['('])
     | _ => none)
  | _ => none

/-- `\s+` replaced by a single space. -/
def wsRunAt (l : Str) : Option (Nat × Str) :=
  let w := l.takeWhile isWsC
  if w = [] then none else some (w.length, [' '])

/-- The cleanup stage of the Segmenter (source lines 47-64, in order):
minimum-grade clauses, trailing periods, strip, SYSC codes, double commas,
commas before `)`, commas after `(`, whitespace collapse. -/
def cleanSpan (span : Str) : Str :=
  subst wsRunAt (subst openCommaAt (subst commaCloseAt (subst commaCommaAt
    (subst syscSub (stripWs (subst dotEndAt (subst mgAt span)))))))

/-- The section-boundary keywords of the first prerequisite pattern,
matched case-insensitively. -/
def kwAt (l : Str) : Bool :=
  ciStarts ("lectures".toList) l || ciStarts ("corequisite".toList) l ||
  ciStarts ("exclusion".toList) l || ciStarts ("includes:".toList) l ||
  ciStarts ("also listed as".toList) l

/-- Where `(?:Lectures|Corequisite|Exclusion|Includes:|Also listed as|$)`
can match, expressed on the remaining suffix (`$` also matches just before
a final newline). -/
def tail1 (suffix : Str) : Bool := kwAt suffix || suffix = [] || suffix = ['\n']

/-- Where `(?:\.|$)` can match, on the remaining suffix. -/
def tail2 (suffix : Str) : Bool :=
  (match suffix with
   | '.' :: _ => true
   | _ => false) || suffix = [] || suffix = ['\n']

/-- The lazy capture `(.+?)` before a tail condition: the shortest non-empty
prefix after which the tail can match. -/
def lazyGroup (tailOk : Str → Bool) : Str → Str
  | [] => []
  | c :: cs => c :: (if tailOk cs then [] else lazyGroup tailOk cs)

def colonWs (c : Char) : Bool := c = ':' || isWsC c

/-- One `[:\s]+` attempt: the largest `c ≥ 1` with class characters and at
least one character left after them (so that `(.+?)` and the tail can
match; any smaller remainder makes the whole attempt fail). -/
def cTrySeg (tailOk : Str → Bool) (m2 : Str) : Option Str :=
  let cmax := (m2.takeWhile colonWs).length
  if cmax = 0 then none
  else if m2.length < 2 then none
  else some (lazyGroup tailOk (m2.drop (min cmax (m2.length - 1))))

def parenS (c : Char) : Bool := c = '(' || c = ')' || c = 's' || c = 'S'

/-- The greedy `[\(\)s]*` loop, trying the longest run first. -/
def bGoSeg (tailOk : Str → Bool) (m : Str) : Nat → Option Str
  | 0 => cTrySeg tailOk m
  | b + 1 =>
    match cTrySeg tailOk (m.drop (b + 1)) with
    | some g => some g
    | none => bGoSeg tailOk m b

/-- The greedy `[s]?` choice (the `s` branch first), then `[\(\)s]*`. -/
def aTrySeg (tailOk : Str → Bool) (m : Str) : Option Str :=
  match m with
  | c :: rest =>
    if c = 's' || c = 'S' then
      (match bGoSeg tailOk rest ((rest.takeWhile parenS).length) with
       | some g => some g
       | none => bGoSeg tailOk m ((m.takeWhile parenS).length))
    else bGoSeg tailOk m ((m.takeWhile parenS).length)
  | [] => bGoSeg tailOk [] 0

/-- One prerequisite-pattern attempt at a start position:
`prerequisite[s]?[\(\)s]*[:\s]+(.+?)` followed by the given tail
alternation, returning the captured group. -/
def segTryAt (tailOk : Str → Bool) (l : Str) : Option Str :=
  if ciStarts ("prerequisite".toList) l then aTrySeg tailOk (l.drop 12) else none

def searchSeg (tryA : Str → Option Str) : Str → Option Str
  | [] => none
  | c :: cs =>
    match tryA (c :: cs) with
    | some g => some g
    | none => searchSeg tryA cs

/-- The Segmenter's locate phase: the first pattern (section-boundary tail)
over the whole text, then the looser period-bounded pattern. -/
def segPrereq (t : Str) : Option Str :=
  match searchSeg (segTryAt tail1) t with
  | some g => some g
  | none => searchSeg (segTryAt tail2) t

def alook : List (Str × Logic) → Str → Option Logic
  | [], _ => none
  | kv :: rest, c => if kv.1 = c then some kv.2 else alook rest c

def aupd (m : List (Str × Logic)) (c : Str) (v : Logic) : List (Str × Logic) :=
  m.map (fun kv => if kv.1 = c then (c, v) else kv)

/-- `unique_prereqs.index(seen[code])` followed by in-place assignment:
replace the first list entry equal to the stored one. -/
def replaceFirst (tgt new : Prereq) : List Prereq → List Prereq
  | [] => []
  | e :: es => if e = tgt then new :: es else e :: replaceFirst tgt new es

/-- The deduplicate-and-upgrade loop (source lines 127-140). -/
def dedupGo : List Prereq → List (Str × Logic) → List Prereq → List Prereq
  | [], _, acc => acc
  | p :: ps, seen, acc =>
    match alook seen p.code with
    | none => dedupGo ps ((p.code, p.logic) :: seen) (acc ++ [p])
    | some l =>
      if p.logic = .OR ∧ l = .AND then
        dedupGo ps (aupd seen p.code .OR)
          (replaceFirst ⟨p.code, .AND⟩ ⟨p.code, .OR⟩ acc)
      else dedupGo ps seen acc

def dedup (l : List Prereq) : List Prereq := dedupGo l [] []

/-- Resolver plus deduplication on a cleaned span. -/
def parseSpan (s : Str) : List Prereq := dedup (resolveSpan s)

/-- `parse_prerequisites` on a string: empty-text guard, locate, clean,
resolve, dedup. -/
def parse_prerequisites (t : Str) : List Prereq :=
  if t = [] then []
  else
    match segPrereq t with
    | none => []
    | some span => parseSpan (cleanSpan span)

/-- `insert_prerequisites` assigns `order_index` by `enumerate`: pair every
entry with its list position. -/
def orderIndexed (l : List Prereq) : List (Str × Logic × Nat) :=
  l.enum.map (fun p => (p.2.code, p.2.logic, p.1))

/-- The Python values that can sit in a raw course mapping: strings, numbers
(ints and floats, as rationals), `None`, and lists (of strings, the only
list payload the feed carries). -/
inductive PyVal where
  | vStr : Str → PyVal
  | vNum : ℚ → PyVal
  | vNone : PyVal
  | vList : List Str → PyVal
deriving DecidableEq

/-- Python truthiness of the modelled values. -/
def truthy : PyVal → Bool
  | .vStr s => !s.isEmpty
  | .vNum q => q != 0
  | .vNone => false
  | .vList l => !l.isEmpty

/-- The exceptions the assembler body can raise: a string operation or regex
applied to a non-string, and `float()` applied to a non-castable value. -/
inductive PErr where
  | notStr : PErr
  | notNum : PErr
deriving DecidableEq

/-- A string-expecting operation (`.strip()`, `re.search(..., x)`). -/
def asStr : PyVal → Except PErr Str
  | .vStr s => .ok s
  | _ => .error .notStr

/-- A raw course entry: each field either absent or holding a value
(`dict.get` supplies the defaults). -/
structure RawCourse where
  codeF : Option PyVal := none
  titleF : Option PyVal := none
  descF : Option PyVal := none
  credF : Option PyVal := none
  prereqF : Option PyVal := none
  coreqF : Option PyVal := none
  exclF : Option PyVal := none
deriving DecidableEq

structure CourseRecord where
  code : Str
  title : Str
  credits : ℚ
  description : Str
  level : Nat
  department : Str
  prerequisites : List Prereq
  corequisites : PyVal
  exclusions : PyVal
deriving DecidableEq

/-- `(\d+\.?\d*)` at the head, converted by `float()`. -/
def numAt (l : Str) : Option ℚ :=
  match l with
  | [] => none
  | c :: _ =>
    if ¬ isDigitC c then none
    else
      let ds := l.takeWhile isDigitC
      let rest := l.dropWhile isDigitC
      let intPart : ℚ := (ds.foldl (fun n d => n * 10 + (d.toNat - 48)) 0 : Nat)
      match rest with
      | '.' :: r2 =>
        let fs := r2.takeWhile isDigitC
        some (intPart +
          ((fs.foldl (fun n d => n * 10 + (d.toNat - 48)) 0 : Nat) : ℚ) / (10 ^ fs.length))
      | _ => some intPart

/-- The credit extractor: strings get the first decimal number (default 0.5),
other values go through `float()`, which raises on `None` and lists. -/
def floatCredits : PyVal → Except PErr ℚ
  | .vStr s =>
    (match searchFirst numAt s with
     | some q => .ok q
     | none => .ok (1 / 2))
  | .vNum q => .ok q
  | .vNone => .error .notNum
  | .vList _ => .error .notNum

/-- `parse_prerequisites` applied to a dynamically-typed argument: the
falsy-guard returns `[]` before any regex runs; a truthy non-string then
raises inside `re.search`. -/
def parsePrereqVal (v : PyVal) : Except PErr (List Prereq) :=
  if truthy v then
    match v with
    | .vStr s => .ok (parse_prerequisites s)
    | _ => .error .notStr
  else .ok []

/-- The body of `process_course` (everything inside the `try`), with
`.ok none` for the silent drops and `.error` for a raised exception. -/
def processCourseE (r : RawCourse) : Except PErr (Option CourseRecord) := do
  let codeRaw ← asStr (r.codeF.getD (.vStr []))
  let code := normalize_course_code codeRaw
  if code = [] then return none
  let level := extract_level code
  if 5000 ≤ level then return none
  let title ← asStr (r.titleF.getD (.vStr []))
  let desc ← asStr (r.descF.getD (.vStr []))
  let credits ← floatCredits (r.credF.getD (.vNum (1 / 2)))
  let pv := r.prereqF.getD (.vStr [])
  let src := if truthy pv then pv else PyVal.vStr (stripWs desc)
  let prereqs ← parsePrereqVal src
  return some
    { code := code
      title := stripWs title
      credits := credits
      description := stripWs desc
      level := level
      department := ("COMP".toList)
      prerequisites := prereqs
      corequisites := r.coreqF.getD (.vList [])
      exclusions := r.exclF.getD (.vList []) }

/-- `process_course` with its `try/except`: any exception yields `None`. -/
def process_course (r : RawCourse) : Option CourseRecord :=
  match processCourseE r with
  | .ok v => v
  | .error _ => none

/-- The batch loop of `main`: process every entry, keep the non-`None`
results in order. -/
def processBatch (rs : List RawCourse) : List CourseRecord :=
  rs.filterMap process_course

set_option maxRecDepth 100000

/-! ## C1: the mixed AND / parenthesized-OR example -/

/-- C1.  For the input text `Prerequisite(s): COMP 1405, and (COMP 2402 or
COMP 2404).` the prerequisite parser returns exactly three references in this
order — COMP 1405 tagged AND, COMP 2402 tagged OR, COMP 2404 tagged OR — with
`order_index` equal to list position 0, 1, 2. -/
theorem c1_mixed_example :
    orderIndexed (parse_prerequisites
      ("Prerequisite(s): COMP 1405, and (COMP 2402 or COMP 2404).".toList)) =
    [(("COMP 1405".toList), Logic.AND, 0),
     (("COMP 2402".toList), Logic.OR, 1),
     (("COMP 2404".toList), Logic.OR, 2)] := by
  decide

/-! ## Generic substitution lemmas -/

/-- No start position of `s` matches `f`. -/
def noMatchF (f : Str → Option (Nat × Str)) : Str → Bool
  | [] => (f []).isNone
  | c :: cs => (f (c :: cs)).isNone && noMatchF f cs

theorem noMatchF_spec {f : Str → Option (Nat × Str)} :
    ∀ {s : Str}, noMatchF f s = true → ∀ k, f (s.drop k) = none := by
  intro s
  induction s with
  | nil =>
    intro h k
    simp only [noMatchF, Option.isNone_iff_eq_none] at h
    simpa using h
  | cons c cs ih =>
    intro h k
    simp only [noMatchF, Bool.and_eq_true, Option.isNone_iff_eq_none] at h
    match k with
    | 0 => simpa using h.1
    | k + 1 => simpa using ih h.2 k

theorem substF_of_noMatch {f : Str → Option (Nat × Str)} :
    ∀ (fuel : Nat) (l : Str), l.length ≤ fuel →
      (∀ k, f (l.drop k) = none) → substF f fuel l = l := by
  intro fuel
  induction fuel with
  | zero =>
    intro l hl _
    match l, hl with
    | [], _ => rfl
  | succ fuel ih =>
    intro l hl h
    match l with
    | [] => rfl
    | c :: cs =>
      have h0 : f (c :: cs) = none := by simpa using h 0
      simp only [substF, h0]
      have hcs : cs.length ≤ fuel := by
        simp only [List.length_cons] at hl
        omega
      have : substF f fuel cs = cs := by
        refine ih cs hcs ?_
        intro k
        simpa using h (k + 1)
      rw [this]

theorem subst_of_noMatch {f : Str → Option (Nat × Str)} {l : Str}
    (h : noMatchF f l = true) : subst f l = l :=
  substF_of_noMatch l.length l (Nat.le_refl _) (noMatchF_spec h)

/-- Every match of `f` in `l` replaces a segment by itself. -/
def SelfRep (f : Str → Option (Nat × Str)) (l : Str) : Prop :=
  ∀ k, f (l.drop k) = none ∨
    ∃ n, 1 ≤ n ∧ f (l.drop k) = some (n, (l.drop k).take n)

theorem substF_of_selfRep {f : Str → Option (Nat × Str)} :
    ∀ (fuel : Nat) (l : Str), l.length ≤ fuel →
      SelfRep f l → substF f fuel l = l := by
  intro fuel
  induction fuel with
  | zero =>
    intro l hl _
    match l, hl with
    | [], _ => rfl
  | succ fuel ih =>
    intro l hl h
    match l with
    | [] => rfl
    | c :: cs =>
      rcases h 0 with h0 | ⟨n, hn1, h0⟩
      · simp only [List.drop_zero] at h0
        simp only [substF, h0]
        have : substF f fuel cs = cs := by
          refine ih cs (Nat.le_of_succ_le_succ (by simpa using hl)) ?_
          intro k
          simpa using h (k + 1)
        rw [this]
      · simp only [List.drop_zero] at h0
        simp only [substF, h0]
        have hdrop : cs.drop (n - 1) = (c :: cs).drop n := by
          match n, hn1 with
          | n + 1, _ => simp
        rw [hdrop]
        have hlen : ((c :: cs).drop n).length ≤ fuel := by
          simp only [List.length_cons] at hl
          simp only [List.length_drop, List.length_cons]
          omega
        have : substF f fuel ((c :: cs).drop n) = (c :: cs).drop n := by
          refine ih _ hlen ?_
          intro k
          have := h (n + k)
          simpa [List.drop_drop, Nat.add_comm] using this
        rw [this, List.take_append_drop]

/-! ## C6: Segmenter idempotence -/

/-- Neither end of the string carries whitespace. -/
def noEdgeWs (s : Str) : Bool :=
  (match s.head? with
   | some c => !isWsC c
   | none => true) &&
  (match s.getLast? with
   | some c => !isWsC c
   | none => true)

theorem dropWhile_eq_self_of_head {p : Char → Bool} {l : Str}
    (h : ∀ c, l.head? = some c → p c = false) : l.dropWhile p = l := by
  match l with
  | [] => rfl
  | c :: cs =>
    have := h c rfl
    simp [List.dropWhile_cons, this]

theorem stripWs_eq_self {s : Str} (h : noEdgeWs s = true) : stripWs s = s := by
  simp only [noEdgeWs, Bool.and_eq_true] at h
  have h1 : s.dropWhile isWsC = s := by
    refine dropWhile_eq_self_of_head ?_
    intro c hc
    have := h.1
    rw [hc] at this
    simpa using this
  have h2 : s.reverse.dropWhile isWsC = s.reverse := by
    refine dropWhile_eq_self_of_head ?_
    intro c hc
    rw [List.head?_reverse] at hc
    have := h.2
    rw [hc] at this
    simpa using this
  rw [stripWs, h1, h2, List.reverse_reverse]

/-- All whitespace in the string consists of isolated single spaces. -/
def singleWs : Str → Bool
  | [] => true
  | [c] => !isWsC c || c = ' '
  | a :: b :: rest => (!isWsC a || (a = ' ' && !isWsC b)) && singleWs (b :: rest)

theorem singleWs_tail {a : Char} {l : Str} (h : singleWs (a :: l) = true) :
    singleWs l = true := by
  match l with
  | [] => rfl
  | b :: rest =>
    simp only [singleWs, Bool.and_eq_true] at h
    exact h.2

theorem singleWs_selfRep {l : Str} (h : singleWs l = true) : SelfRep wsRunAt l := by
  intro k
  induction k generalizing l with
  | zero =>
    simp only [List.drop_zero]
    match l with
    | [] => left; rfl
    | [c] =>
      simp only [singleWs] at h
      by_cases hc : isWsC c = true
      · right
        refine ⟨1, Nat.le_refl 1, ?_⟩
        have hsp : c = ' ' := by
          rcases Bool.or_eq_true _ _ |>.mp h with h' | h'
          · rw [hc] at h'; simp at h'
          · simpa using h'
        subst hsp
        simp [wsRunAt, List.takeWhile_cons, hc]
      · left
        simp [wsRunAt, List.takeWhile_cons, hc]
    | a :: b :: rest =>
      simp only [singleWs, Bool.and_eq_true] at h
      by_cases ha : isWsC a = true
      · right
        refine ⟨1, Nat.le_refl 1, ?_⟩
        have hsplit : a = ' ' ∧ isWsC b = false := by
          rcases Bool.or_eq_true _ _ |>.mp h.1 with h' | h'
          · rw [ha] at h'; simp at h'
          · constructor
            · simpa using (Bool.and_eq_true _ _ |>.mp h').1
            · simpa using (Bool.and_eq_true _ _ |>.mp h').2
        rcases hsplit with ⟨hsp, hb⟩
        subst hsp
        simp [wsRunAt, List.takeWhile_cons, ha, hb]
      · left
        simp [wsRunAt, List.takeWhile_cons, ha]
  | succ k ih =>
    match l with
    | [] =>
      simp only [List.drop_nil]
      left
      rfl
    | c :: cs =>
      have := ih (singleWs_tail h)
      simpa using this

/-- C6 (amended).  The full Segmenter is not idempotent — a cleaned span no
longer contains the announcing token, so a second locate pass finds nothing
(see the counterexample) — but the cleanup stage is the identity on any span
that carries no minimum-grade clause, no trailing period run, no SYSC code,
no residual comma patterns, no edge whitespace, and only isolated single
spaces; hence cleanup is idempotent whenever a first pass lands in that
regime. -/
theorem c6_cleanup_identity (s : Str)
    (h1 : noMatchF mgAt s = true)
    (h2 : noMatchF dotEndAt s = true)
    (h3 : noEdgeWs s = true)
    (h4 : noMatchF syscSub s = true)
    (h5 : noMatchF commaCommaAt s = true)
    (h6 : noMatchF commaCloseAt s = true)
    (h7 : noMatchF openCommaAt s = true)
    (h8 : singleWs s = true) :
    cleanSpan s = s := by
  rw [cleanSpan, subst_of_noMatch h1, subst_of_noMatch h2, stripWs_eq_self h3,
    subst_of_noMatch h4, subst_of_noMatch h5, subst_of_noMatch h6,
    subst_of_noMatch h7]
  exact substF_of_selfRep s.length s (Nat.le_refl _) (singleWs_selfRep h8)

/-- The Segmenter as a whole: locate the prerequisite clause, then clean it. -/
def segmentSpan (t : Str) : Option Str := (segPrereq t).map cleanSpan

/-- C6 counterexample.  The Segmenter maps the raw text to the cleaned span
`COMP 1005 or COMP 1405`, but feeding that span through the Segmenter again
produces no span at all (the announcing token was consumed), not an
identical one. -/
theorem c6_counterexample :
    segmentSpan ("Prerequisite(s): COMP 1005 or COMP 1405.".toList) =
      some ("COMP 1005 or COMP 1405".toList) ∧
    segmentSpan ("COMP 1005 or COMP 1405".toList) = none := by
  constructor
  · decide
  · decide

/-- C6 witness: the amended cleanup-identity theorem applied to the concrete
cleaned span of the C1 example text. -/
theorem c6_witness :
    cleanSpan ("COMP 1405, and (COMP 2402 or COMP 2404)".toList) =
      ("COMP 1405, and (COMP 2402 or COMP 2404)".toList) :=
  c6_cleanup_identity _ (by decide) (by decide) (by decide) (by decide)
    (by decide) (by decide) (by decide) (by decide)

/-! ## C4: deduplication with AND-to-OR upgrade -/

/-- First-occurrence deduplication of a code list (the order the claim
predicts for the output entries). -/
def keepFirstFrom (seen : List Str) : List Str → List Str
  | [] => []
  | c :: cs => if c ∈ seen then keepFirstFrom seen cs else c :: keepFirstFrom (c :: seen) cs

theorem alook_isSome_iff {seen : List (Str × Logic)} {c : Str} :
    (alook seen c).isSome = true ↔ c ∈ seen.map Prod.fst := by
  induction seen with
  | nil => simp [alook]
  | cons kv rest ih =>
    by_cases h : kv.1 = c
    · simp [alook, h]
    · simp only [alook, if_neg h, List.map_cons, List.mem_cons, ih]
      constructor
      · intro hm
        exact Or.inr hm
      · intro hm
        rcases hm with hm | hm
        · exact absurd hm.symm h
        · exact hm

theorem aupd_fst {m : List (Str × Logic)} {c : Str} {v : Logic} :
    (aupd m c v).map Prod.fst = m.map Prod.fst := by
  induction m with
  | nil => rfl
  | cons kv rest ih =>
    by_cases h : kv.1 = c
    · simp [aupd, h] at ih ⊢
      simpa [aupd] using ih
    · simp [aupd, h] at ih ⊢
      simpa [aupd] using ih

theorem replaceFirst_codes {c : Str} {x y : Logic} :
    ∀ acc : List Prereq,
      (replaceFirst ⟨c, x⟩ ⟨c, y⟩ acc).map Prereq.code = acc.map Prereq.code := by
  intro acc
  induction acc with
  | nil => rfl
  | cons e es ih =>
    by_cases h : e = (⟨c, x⟩ : Prereq)
    · simp [replaceFirst, h]
    · simp [replaceFirst, h, ih]

theorem dedupGo_codes :
    ∀ (ps : List Prereq) (seen : List (Str × Logic)) (acc : List Prereq),
      (dedupGo ps seen acc).map Prereq.code =
        acc.map Prereq.code ++ keepFirstFrom (seen.map Prod.fst) (ps.map Prereq.code) := by
  intro ps
  induction ps with
  | nil => intro seen acc; simp [dedupGo, keepFirstFrom]
  | cons p ps ih =>
    intro seen acc
    cases halook : alook seen p.code with
    | none =>
      have hnm : p.code ∉ seen.map Prod.fst := by
        intro hmem
        have := alook_isSome_iff.mpr hmem
        rw [halook] at this
        simp at this
      simp only [dedupGo, halook, List.map_cons, keepFirstFrom, if_neg hnm]
      rw [ih]
      simp
    | some L =>
      have hm : p.code ∈ seen.map Prod.fst := by
        apply alook_isSome_iff.mp
        rw [halook]; rfl
      by_cases hup : p.logic = .OR ∧ L = .AND
      · simp only [dedupGo, halook, if_pos hup, List.map_cons, keepFirstFrom, if_pos hm]
        rw [ih, replaceFirst_codes, aupd_fst]
      · simp only [dedupGo, halook, if_neg hup, List.map_cons, keepFirstFrom, if_pos hm]
        rw [ih]

/-- The invariant carried by the dedup loop: unique codes in the output,
the seen-map mirrors the output entries, each output entry is `OR` exactly
when an `OR` pair for its code was already consumed, and every consumed pair
has an output entry. -/
def DedupInv (processed : List Prereq) (seen : List (Str × Logic))
    (acc : List Prereq) : Prop :=
  (acc.map Prereq.code).Nodup ∧
  (∀ c L, alook seen c = some L ↔ (⟨c, L⟩ : Prereq) ∈ acc) ∧
  (∀ e ∈ acc, (e.logic = .OR ↔ (⟨e.code, .OR⟩ : Prereq) ∈ processed)) ∧
  (∀ p ∈ processed, p.code ∈ acc.map Prereq.code)

theorem aupd_cons {kv : Str × Logic} {rest : List (Str × Logic)} {c : Str}
    {v : Logic} :
    aupd (kv :: rest) c v = (if kv.1 = c then (c, v) else kv) :: aupd rest c v :=
  rfl

theorem aupd_alook_self {m : List (Str × Logic)} {c : Str} {v L : Logic}
    (h : alook m c = some L) : alook (aupd m c v) c = some v := by
  induction m with
  | nil => simp [alook] at h
  | cons kv rest ih =>
    rw [aupd_cons]
    by_cases h1 : kv.1 = c
    · rw [if_pos h1]
      simp [alook]
    · rw [if_neg h1]
      simp only [alook, if_neg h1] at h ⊢
      exact ih h

theorem aupd_alook_ne {m : List (Str × Logic)} {c c' : Str} {v : Logic}
    (hne : c' ≠ c) : alook (aupd m c v) c' = alook m c' := by
  induction m with
  | nil => rfl
  | cons kv rest ih =>
    rw [aupd_cons]
    by_cases h1 : kv.1 = c
    · rw [if_pos h1]
      have : ¬ ((c, v).1 = c') := fun hh => hne (by simpa using hh.symm)
      simp only [alook, if_neg this, if_neg (h1 ▸ fun hh => hne hh.symm : ¬ kv.1 = c')]
      exact ih
    · rw [if_neg h1]
      by_cases h3 : kv.1 = c'
      · simp only [alook, if_pos h3]
      · simp only [alook, if_neg h3]
        exact ih

theorem replaceFirst_of_mem {tgt new : Prereq} :
    ∀ {acc : List Prereq}, tgt ∈ acc →
      ∃ a₁ a₂, acc = a₁ ++ tgt :: a₂ ∧ tgt ∉ a₁ ∧
        replaceFirst tgt new acc = a₁ ++ new :: a₂ := by
  intro acc
  induction acc with
  | nil => intro h; simp at h
  | cons e es ih =>
    intro h
    by_cases he : e = tgt
    · subst he
      exact ⟨[], es, rfl, by simp, by simp [replaceFirst]⟩
    · have hmem : tgt ∈ es := by
        rcases List.mem_cons.mp h with h' | h'
        · exact absurd h'.symm he
        · exact h'
      rcases ih hmem with ⟨a₁, a₂, hdec, hnot, hrep⟩
      refine ⟨e :: a₁, a₂, by rw [hdec]; rfl, ?_, ?_⟩
      · intro hmem'
        rcases List.mem_cons.mp hmem' with h' | h'
        · exact he h'.symm
        · exact hnot h'
      · simp only [replaceFirst, if_neg he, hrep, List.cons_append]

theorem nodup_code_eq {acc : List Prereq} (h : (acc.map Prereq.code).Nodup)
    {e₁ e₂ : Prereq} (h1 : e₁ ∈ acc) (h2 : e₂ ∈ acc) (hc : e₁.code = e₂.code) :
    e₁ = e₂ := by
  induction acc with
  | nil => simp at h1
  | cons a as ih =>
    simp only [List.map_cons, List.nodup_cons] at h
    rcases List.mem_cons.mp h1 with h1' | h1' <;>
      rcases List.mem_cons.mp h2 with h2' | h2'
    · rw [h1', h2']
    · exfalso
      apply h.1
      rw [← h1', hc]
      exact List.mem_map.mpr ⟨e₂, h2', rfl⟩
    · exfalso
      apply h.1
      rw [← h2', ← hc]
      exact List.mem_map.mpr ⟨e₁, h1', rfl⟩
    · exact ih h.2 h1' h2'

theorem prereq_eta (e : Prereq) : (⟨e.code, e.logic⟩ : Prereq) = e := rfl

theorem dedupInv_insert {processed : List Prereq} {seen : List (Str × Logic)}
    {acc : List Prereq} {p : Prereq} (inv : DedupInv processed seen acc)
    (halook : alook seen p.code = none) :
    DedupInv (processed ++ [p]) ((p.code, p.logic) :: seen) (acc ++ [p]) := by
  obtain ⟨hnd, hseen, hlog, hcomp⟩ := inv
  have hnotin : ∀ L, (⟨p.code, L⟩ : Prereq) ∉ acc := by
    intro L hmem
    have := (hseen p.code L).mpr hmem
    rw [halook] at this
    exact Option.noConfusion this
  have hcodes : p.code ∉ acc.map Prereq.code := by
    intro hmem
    rcases List.mem_map.mp hmem with ⟨e, hin, hce⟩
    have : (⟨p.code, e.logic⟩ : Prereq) ∈ acc := by
      rw [← hce, prereq_eta]; exact hin
    exact hnotin e.logic this
  refine ⟨?_, ?_, ?_, ?_⟩
  · rw [List.map_append]
    rw [List.nodup_append]
    refine ⟨hnd, by simp, ?_⟩
    intro a ha hb
    simp only [List.map_cons, List.map_nil, List.mem_singleton] at hb
    rw [hb] at ha
    exact hcodes ha
  · intro c L
    by_cases hc : p.code = c
    · subst hc
      simp only [alook, if_pos rfl, List.mem_append, List.mem_singleton]
      constructor
      · intro h
        have : L = p.logic := by
          have := Option.some.inj h
          exact this.symm
        right
        rw [this]
      · intro h
        rcases h with h | h
        · exact absurd h (hnotin L)
        · have : L = p.logic := by
            have := congrArg Prereq.logic h
            simpa using this
          rw [this]
          simp
    · simp only [alook, if_neg hc, List.mem_append, List.mem_singleton]
      rw [hseen c L]
      constructor
      · intro h; exact Or.inl h
      · intro h
        rcases h with h | h
        · exact h
        · exfalso
          apply hc
          have := congrArg Prereq.code h
          simpa using this.symm
  · intro e he
    rcases List.mem_append.mp he with he' | he'
    · have hiff := hlog e he'
      have hne : e.code ≠ p.code := by
        intro hh
        apply hcodes
        rw [← hh]
        exact List.mem_map.mpr ⟨e, he', rfl⟩
      rw [hiff]
      simp only [List.mem_append, List.mem_singleton]
      constructor
      · intro h; exact Or.inl h
      · intro h
        rcases h with h | h
        · exact h
        · exfalso
          apply hne
          have := congrArg Prereq.code h
          simpa using this
    · have he2 : e = p := by simpa using he'
      subst he2
      simp only [List.mem_append, List.mem_singleton]
      constructor
      · intro h
        right
        rw [← h, prereq_eta]
      · intro h
        rcases h with h | h
        · exfalso
          apply hcodes
          have := hcomp _ h
          simpa using this
        · have := congrArg Prereq.logic h
          simpa using this.symm
  · intro q hq
    rcases List.mem_append.mp hq with hq' | hq'
    · have := hcomp q hq'
      rw [List.map_append]
      exact List.mem_append.mpr (Or.inl this)
    · have hq2 : q = p := by simpa using hq'
      subst hq2
      rw [List.map_append]
      refine List.mem_append.mpr (Or.inr ?_)
      simp

theorem dedupInv_upgrade {processed : List Prereq} {seen : List (Str × Logic)}
    {acc : List Prereq} {p : Prereq} (inv : DedupInv processed seen acc)
    (halook : alook seen p.code = some .AND) (hOR : p.logic = .OR) :
    DedupInv (processed ++ [p]) (aupd seen p.code .OR)
      (replaceFirst ⟨p.code, .AND⟩ ⟨p.code, .OR⟩ acc) := by
  obtain ⟨hnd, hseen, hlog, hcomp⟩ := inv
  have htgt : (⟨p.code, .AND⟩ : Prereq) ∈ acc := (hseen p.code .AND).mp halook
  rcases replaceFirst_of_mem htgt with ⟨a₁, a₂, hdec, hnot1, hrep⟩
  have hmap : acc.map Prereq.code = a₁.map Prereq.code ++ p.code :: a₂.map Prereq.code := by
    rw [hdec]; simp
  have hmapr : (replaceFirst ⟨p.code, .AND⟩ ⟨p.code, .OR⟩ acc).map Prereq.code =
      a₁.map Prereq.code ++ p.code :: a₂.map Prereq.code := by
    rw [hrep]; simp
  have hnd' := hnd
  rw [hmap] at hnd'
  rw [List.nodup_append] at hnd'
  obtain ⟨hnd1, hnd2, hdisj⟩ := hnd'
  rw [List.nodup_cons] at hnd2
  have hna1 : p.code ∉ a₁.map Prereq.code := fun hmem => hdisj hmem (by simp)
  have hna2 : p.code ∉ a₂.map Prereq.code := hnd2.1
  have hpe : p = (⟨p.code, .OR⟩ : Prereq) := by
    rw [← prereq_eta p, hOR]
  refine ⟨?_, ?_, ?_, ?_⟩
  · rw [hmapr, ← hmap]
    exact hnd
  · intro c L
    rw [hrep]
    by_cases hc : c = p.code
    · subst hc
      rw [aupd_alook_self halook]
      constructor
      · intro h
        have hL : L = .OR := (Option.some.inj h).symm
        subst hL
        exact List.mem_append.mpr (Or.inr (by simp))
      · intro h
        rcases List.mem_append.mp h with h' | h'
        · exfalso
          exact hna1 (List.mem_map.mpr ⟨_, h', rfl⟩)
        · rcases List.mem_cons.mp h' with h'' | h''
          · have : L = .OR := by
              have := congrArg Prereq.logic h''
              simpa using this
            rw [this]
          · exfalso
            exact hna2 (List.mem_map.mpr ⟨_, h'', rfl⟩)
    · rw [aupd_alook_ne hc, hseen c L, hdec]
      have hmid : ∀ L' : Logic, ((⟨c, L⟩ : Prereq) = ⟨p.code, L'⟩) → False := by
        intro L' hh
        apply hc
        have := congrArg Prereq.code hh
        simpa using this
      constructor
      · intro h
        rcases List.mem_append.mp h with h' | h'
        · exact List.mem_append.mpr (Or.inl h')
        · rcases List.mem_cons.mp h' with h'' | h''
          · exact absurd h'' (hmid .AND)
          · exact List.mem_append.mpr (Or.inr (List.mem_cons.mpr (Or.inr h'')))
      · intro h
        rcases List.mem_append.mp h with h' | h'
        · exact List.mem_append.mpr (Or.inl h')
        · rcases List.mem_cons.mp h' with h'' | h''
          · exact absurd h'' (hmid .OR)
          · exact List.mem_append.mpr (Or.inr (List.mem_cons.mpr (Or.inr h'')))
  · intro e he
    rw [hrep] at he
    have hcases := List.mem_append.mp he
    have hside : e ∈ a₁ ∨ e = (⟨p.code, .OR⟩ : Prereq) ∨ e ∈ a₂ := by
      rcases hcases with h' | h'
      · exact Or.inl h'
      · rcases List.mem_cons.mp h' with h'' | h''
        · exact Or.inr (Or.inl h'')
        · exact Or.inr (Or.inr h'')
    rcases hside with hs | hs | hs
    · have hea : e ∈ acc := by
        rw [hdec]
        exact List.mem_append.mpr (Or.inl hs)
      have hne : e.code ≠ p.code := by
        intro hh
        apply hna1
        rw [← hh]
        exact List.mem_map.mpr ⟨e, hs, rfl⟩
      rw [hlog e hea]
      constructor
      · intro h
        exact List.mem_append.mpr (Or.inl h)
      · intro h
        rcases List.mem_append.mp h with h' | h'
        · exact h'
        · exfalso
          apply hne
          have : (⟨e.code, Logic.OR⟩ : Prereq) = p := by simpa using h'
          have := congrArg Prereq.code this
          simpa using this
    · rw [hs]
      constructor
      · intro _
        refine List.mem_append.mpr (Or.inr ?_)
        rw [← hpe]
        simp
      · intro _
        rfl
    · have hea : e ∈ acc := by
        rw [hdec]
        exact List.mem_append.mpr (Or.inr (List.mem_cons.mpr (Or.inr hs)))
      have hne : e.code ≠ p.code := by
        intro hh
        apply hna2
        rw [← hh]
        exact List.mem_map.mpr ⟨e, hs, rfl⟩
      rw [hlog e hea]
      constructor
      · intro h
        exact List.mem_append.mpr (Or.inl h)
      · intro h
        rcases List.mem_append.mp h with h' | h'
        · exact h'
        · exfalso
          apply hne
          have : (⟨e.code, Logic.OR⟩ : Prereq) = p := by simpa using h'
          have := congrArg Prereq.code this
          simpa using this
  · intro q hq
    rw [hmapr, ← hmap]
    rcases List.mem_append.mp hq with hq' | hq'
    · exact hcomp q hq'
    · have : q = p := by simpa using hq'
      subst this
      rw [hmap]
      exact List.mem_append.mpr (Or.inr (by simp))

theorem dedupInv_skip {processed : List Prereq} {seen : List (Str × Logic)}
    {acc : List Prereq} {p : Prereq} {L : Logic} (inv : DedupInv processed seen acc)
    (halook : alook seen p.code = some L) (hnup : ¬ (p.logic = .OR ∧ L = .AND)) :
    DedupInv (processed ++ [p]) seen acc := by
  obtain ⟨hnd, hseen, hlog, hcomp⟩ := inv
  have hpm : (⟨p.code, L⟩ : Prereq) ∈ acc := (hseen p.code L).mp halook
  refine ⟨hnd, hseen, ?_, ?_⟩
  · intro e he
    by_cases hc : e.code = p.code
    · have hEq : e = (⟨p.code, L⟩ : Prereq) :=
        nodup_code_eq hnd he hpm (by simpa using hc)
      have heL : e.logic = L := by rw [hEq]
      constructor
      · intro h
        exact List.mem_append.mpr (Or.inl ((hlog e he).mp h))
      · intro h
        rcases List.mem_append.mp h with h' | h'
        · exact (hlog e he).mpr h'
        · have hp2 : (⟨e.code, Logic.OR⟩ : Prereq) = p := by simpa using h'
          have hpl : p.logic = Logic.OR := by
            have := congrArg Prereq.logic hp2
            simpa using this.symm
          match L, hnup, heL with
          | Logic.OR, _, heL => exact heL
          | Logic.AND, hnup, _ => exact absurd ⟨hpl, rfl⟩ hnup
    · rw [hlog e he]
      constructor
      · intro h
        exact List.mem_append.mpr (Or.inl h)
      · intro h
        rcases List.mem_append.mp h with h' | h'
        · exact h'
        · exfalso
          apply hc
          have hp2 : (⟨e.code, Logic.OR⟩ : Prereq) = p := by simpa using h'
          have := congrArg Prereq.code hp2
          simpa using this
  · intro q hq
    rcases List.mem_append.mp hq with hq' | hq'
    · exact hcomp q hq'
    · have : q = p := by simpa using hq'
      subst this
      exact List.mem_map.mpr ⟨_, hpm, rfl⟩

theorem dedupGo_logic :
    ∀ (ps processed : List Prereq) (seen : List (Str × Logic)) (acc : List Prereq),
      DedupInv processed seen acc →
      ∀ e ∈ dedupGo ps seen acc,
        (e.logic = .OR ↔ (⟨e.code, .OR⟩ : Prereq) ∈ processed ++ ps) := by
  intro ps
  induction ps with
  | nil =>
    intro processed seen acc inv e he
    simp only [dedupGo] at he
    simpa using inv.2.2.1 e he
  | cons p ps ih =>
    intro processed seen acc inv e he
    rw [List.append_cons]
    cases halook : alook seen p.code with
    | none =>
      simp only [dedupGo, halook] at he
      exact ih (processed ++ [p]) _ _ (dedupInv_insert inv halook) e he
    | some L =>
      by_cases hup : p.logic = .OR ∧ L = .AND
      · simp only [dedupGo, halook, if_pos hup] at he
        have hA : alook seen p.code = some .AND := by rw [halook, hup.2]
        exact ih (processed ++ [p]) _ _ (dedupInv_upgrade inv hA hup.1) e he
      · simp only [dedupGo, halook, if_neg hup] at he
        exact ih (processed ++ [p]) _ _ (dedupInv_skip inv halook hup) e he

/-- C4.  The deduplicator keeps the first occurrence of each code at its
first-seen position (the output's code sequence is the first-occurrence
deduplication of the input's), an entry carries `OR` exactly when some input
pair for its code carried `OR` (so a later `OR` upgrades a stored `AND`
in place and an `OR` is never downgraded), and the concrete input
`[(COMP 1005, AND), (COMP 1005, OR)]` yields the single entry
`(COMP 1005, OR)` at position 0. -/
theorem c4_dedup_upgrade (l : List Prereq) :
    (dedup l).map Prereq.code = keepFirstFrom [] (l.map Prereq.code) ∧
    (∀ e ∈ dedup l, (e.logic = Logic.OR ↔ (⟨e.code, Logic.OR⟩ : Prereq) ∈ l)) ∧
    dedup [⟨("COMP 1005".toList), .AND⟩, ⟨("COMP 1005".toList), .OR⟩] =
      [⟨("COMP 1005".toList), .OR⟩] := by
  refine ⟨?_, ?_, by decide⟩
  · have := dedupGo_codes l [] []
    simpa [dedup] using this
  · intro e he
    have hinv : DedupInv [] [] [] := by
      refine ⟨by simp, ?_, by simp, by simp⟩
      intro c L
      simp [alook]
    have := dedupGo_logic l [] [] [] hinv e (by simpa [dedup] using he)
    simpa using this

/-- C4 witness: the logic-characterization applied to the concrete example
entry, whose membership in the dedup output is decided by evaluation. -/
theorem c4_witness :
    ((⟨("COMP 1005".toList), Logic.OR⟩ : Prereq).logic = Logic.OR ↔
      (⟨(⟨("COMP 1005".toList), Logic.OR⟩ : Prereq).code, Logic.OR⟩ : Prereq) ∈
        [(⟨("COMP 1005".toList), Logic.AND⟩ : Prereq),
         ⟨("COMP 1005".toList), Logic.OR⟩]) :=
  (c4_dedup_upgrade
    [⟨("COMP 1005".toList), .AND⟩, ⟨("COMP 1005".toList), .OR⟩]).2.1
    ⟨("COMP 1005".toList), Logic.OR⟩ (by decide)

/-! ## Character facts for the ASCII case maps -/

theorem char_toNat_inj {a b : Char} (h : a.toNat = b.toNat) : a = b := by
  rw [← Char.ofNat_toNat a, ← Char.ofNat_toNat b, h]

theorem char_eq_iff_toNat {a b : Char} : a = b ↔ a.toNat = b.toNat :=
  ⟨fun h => by rw [h], char_toNat_inj⟩

theorem char_le_iff_toNat {a b : Char} : a ≤ b ↔ a.toNat ≤ b.toNat := by
  rw [Char.le_def, UInt32.le_def, BitVec.le_def]
  exact Iff.rfl

theorem char_toNat_ofNat {n : Nat} (h : n < 55296) : (Char.ofNat n).toNat = n := by
  have hv : n.isValidChar := Or.inl h
  rw [Char.ofNat, dif_pos hv]
  rfl

theorem lowerRange_iff {c : Char} :
    (decide ('a' ≤ c) && decide (c ≤ 'z')) = true ↔
      97 ≤ c.toNat ∧ c.toNat ≤ 122 := by
  rw [Bool.and_eq_true, decide_eq_true_iff, decide_eq_true_iff,
    char_le_iff_toNat, char_le_iff_toNat]
  exact Iff.rfl

theorem upperRange_iff {c : Char} :
    (decide ('A' ≤ c) && decide (c ≤ 'Z')) = true ↔
      65 ≤ c.toNat ∧ c.toNat ≤ 90 := by
  rw [Bool.and_eq_true, decide_eq_true_iff, decide_eq_true_iff,
    char_le_iff_toNat, char_le_iff_toNat]
  exact Iff.rfl

theorem toUpperA_toNat_of_lower {c : Char} (h : 97 ≤ c.toNat ∧ c.toNat ≤ 122) :
    (toUpperA c).toNat = c.toNat - 32 := by
  rw [toUpperA, if_pos (lowerRange_iff.mpr h)]
  exact char_toNat_ofNat (by omega)

theorem toUpperA_of_not_lower {c : Char} (h : ¬ (97 ≤ c.toNat ∧ c.toNat ≤ 122)) :
    toUpperA c = c := by
  rw [toUpperA, if_neg]
  intro hc
  exact h (lowerRange_iff.mp hc)

theorem toLowerA_toNat_of_upper {c : Char} (h : 65 ≤ c.toNat ∧ c.toNat ≤ 90) :
    (toLowerA c).toNat = c.toNat + 32 := by
  rw [toLowerA, if_pos (upperRange_iff.mpr h)]
  exact char_toNat_ofNat (by omega)

theorem toLowerA_of_not_upper {c : Char} (h : ¬ (65 ≤ c.toNat ∧ c.toNat ≤ 90)) :
    toLowerA c = c := by
  rw [toLowerA, if_neg]
  intro hc
  exact h (upperRange_iff.mp hc)

theorem toLowerA_toUpperA (c : Char) : toLowerA (toUpperA c) = toLowerA c := by
  by_cases h : 97 ≤ c.toNat ∧ c.toNat ≤ 122
  · have hu := toUpperA_toNat_of_lower h
    have hup : 65 ≤ (toUpperA c).toNat ∧ (toUpperA c).toNat ≤ 90 := by omega
    have h1 : (toLowerA (toUpperA c)).toNat = c.toNat := by
      rw [toLowerA_toNat_of_upper hup]
      omega
    have h2 : toLowerA c = c := toLowerA_of_not_upper (by omega)
    rw [h2]
    exact char_toNat_inj h1
  · rw [toUpperA_of_not_lower h]

theorem toUpperA_toUpperA (c : Char) : toUpperA (toUpperA c) = toUpperA c := by
  by_cases h : 97 ≤ c.toNat ∧ c.toNat ≤ 122
  · have hu := toUpperA_toNat_of_lower h
    exact toUpperA_of_not_lower (by omega)
  · rw [toUpperA_of_not_lower h, toUpperA_of_not_lower h]

theorem isWsC_iff_toNat {c : Char} :
    isWsC c = true ↔ c.toNat ∈ [32, 9, 10, 13, 11, 12] := by
  have h32 : (c = ' ') ↔ c.toNat = 32 := by
    rw [char_eq_iff_toNat]; exact Iff.rfl
  have h9 : (c = '\t') ↔ c.toNat = 9 := by
    rw [char_eq_iff_toNat]; exact Iff.rfl
  have h10 : (c = '\n') ↔ c.toNat = 10 := by
    rw [char_eq_iff_toNat]; exact Iff.rfl
  have h13 : (c = '\x0d') ↔ c.toNat = 13 := by
    rw [char_eq_iff_toNat]; exact Iff.rfl
  have h11 : (c = '\x0b') ↔ c.toNat = 11 := by
    rw [char_eq_iff_toNat]; exact Iff.rfl
  have h12 : (c = '\x0c') ↔ c.toNat = 12 := by
    rw [char_eq_iff_toNat]; exact Iff.rfl
  simp only [isWsC, Bool.or_eq_true, decide_eq_true_iff, h32, h9, h10, h13, h11, h12]
  simp [or_assoc]

theorem isWsC_toUpperA (c : Char) : isWsC (toUpperA c) = isWsC c := by
  by_cases h : 97 ≤ c.toNat ∧ c.toNat ≤ 122
  · have hu := toUpperA_toNat_of_lower h
    have l1 : isWsC (toUpperA c) = false := by
      cases hb : isWsC (toUpperA c)
      · rfl
      · exfalso
        have := isWsC_iff_toNat.mp hb
        simp only [List.mem_cons, List.not_mem_nil, or_false] at this
        omega
    have l2 : isWsC c = false := by
      cases hb : isWsC c
      · rfl
      · exfalso
        have := isWsC_iff_toNat.mp hb
        simp only [List.mem_cons, List.not_mem_nil, or_false] at this
        omega
    rw [l1, l2]
  · rw [toUpperA_of_not_lower h]

theorem isDigitC_iff_toNat {c : Char} :
    isDigitC c = true ↔ 48 ≤ c.toNat ∧ c.toNat ≤ 57 := by
  rw [isDigitC, Bool.and_eq_true, decide_eq_true_iff, decide_eq_true_iff,
    char_le_iff_toNat, char_le_iff_toNat]
  exact Iff.rfl

theorem isDigitC_toUpperA (c : Char) : isDigitC (toUpperA c) = isDigitC c := by
  by_cases h : 97 ≤ c.toNat ∧ c.toNat ≤ 122
  · have hu := toUpperA_toNat_of_lower h
    have l1 : isDigitC (toUpperA c) = false := by
      cases hb : isDigitC (toUpperA c)
      · rfl
      · exfalso
        have := isDigitC_iff_toNat.mp hb
        omega
    have l2 : isDigitC c = false := by
      cases hb : isDigitC c
      · rfl
      · exfalso
        have := isDigitC_iff_toNat.mp hb
        omega
    rw [l1, l2]
  · rw [toUpperA_of_not_lower h]

theorem toUpperA_of_digit {c : Char} (h : isDigitC c = true) : toUpperA c = c := by
  have := isDigitC_iff_toNat.mp h
  exact toUpperA_of_not_lower (by omega)

theorem isWsC_not_digit {c : Char} (h : isDigitC c = true) : isWsC c = false := by
  have hd := isDigitC_iff_toNat.mp h
  cases hb : isWsC c
  · rfl
  · exfalso
    have := isWsC_iff_toNat.mp hb
    simp only [List.mem_cons, List.not_mem_nil, or_false] at this
    omega

/-! ## Characterization of the code-pattern matcher -/

theorem matchLitCI_some_decomp {pat : Str} :
    ∀ {l r : Str}, matchLitCI pat l = some r →
      ∃ p, l = p ++ r ∧ p.map toLowerA = pat := by
  induction pat with
  | nil =>
    intro l r h
    simp only [matchLitCI] at h
    exact ⟨[], by rw [Option.some.inj h]; rfl, rfl⟩
  | cons q qs ih =>
    intro l r h
    match l with
    | [] => exact absurd h (by simp [matchLitCI])
    | c :: cs =>
      simp only [matchLitCI] at h
      by_cases hc : toLowerA c = q
      · rw [if_pos hc] at h
        rcases ih h with ⟨p, hp1, hp2⟩
        exact ⟨c :: p, by rw [hp1]; rfl, by simp [hp2, hc]⟩
      · rw [if_neg hc] at h
        exact absurd h (by simp)

theorem matchLitCI_of_map {p : Str} :
    ∀ {pat r : Str}, p.map toLowerA = pat → matchLitCI pat (p ++ r) = some r := by
  induction p with
  | nil =>
    intro pat r h
    rw [← h]
    rfl
  | cons c cs ih =>
    intro pat r h
    rw [← h]
    simp only [List.map_cons, List.cons_append, matchLitCI, if_pos rfl]
    exact ih rfl

theorem takeWhile_all_append {p : Char → Bool} {w y : Str}
    (hw : ∀ c ∈ w, p c = true) (hy : ∀ c, y.head? = some c → p c = false) :
    (w ++ y).takeWhile p = w ∧ (w ++ y).dropWhile p = y := by
  induction w with
  | nil =>
    simp only [List.nil_append]
    match y with
    | [] => exact ⟨rfl, rfl⟩
    | c :: cs =>
      have := hy c rfl
      simp [List.takeWhile_cons, List.dropWhile_cons, this]
  | cons a w ih =>
    have ha : p a = true := hw a (by simp)
    have ih' := ih (fun c hc => hw c (by simp [hc]))
    simp [List.takeWhile_cons, List.dropWhile_cons, ha, ih'.1, ih'.2]

/-- Forward characterization of `compAt`: a successful match decomposes the
input as a case-variant of `comp`, a whitespace run, the four digits, and
the remainder. -/
theorem compAt_decomp {l : Str} {n : Nat} {ds : Str}
    (h : compAt l = some (n, ds)) :
    ∃ p w rest, l = p ++ w ++ ds ++ rest ∧
      p.map toLowerA = ("comp".toList) ∧ (∀ c ∈ w, isWsC c = true) ∧
      ds.length = 4 ∧ ds.all isDigitC = true ∧ n = 8 + w.length := by
  rw [compAt, codeLitAt] at h
  cases hm : matchLitCI ("comp".toList) l with
  | none => rw [hm] at h; exact absurd h (by simp)
  | some r =>
    rw [hm] at h
    simp only at h
    by_cases hcond : ((r.dropWhile isWsC).take 4).length = 4 ∧
        ((r.dropWhile isWsC).take 4).all isDigitC = true
    · rw [if_pos (by exact ⟨hcond.1, hcond.2⟩)] at h
      have hn : n = 8 + (r.takeWhile isWsC).length ∧ ds = (r.dropWhile isWsC).take 4 := by
        have h1 := congrArg Prod.fst (Option.some.inj h)
        have h2 := congrArg Prod.snd (Option.some.inj h)
        simp only at h1 h2
        have hc4 : ("comp".toList).length = 4 := rfl
        rw [hc4] at h1
        constructor
        · omega
        · rw [← h2]
      rcases matchLitCI_some_decomp hm with ⟨p, hl, hp⟩
      refine ⟨p, r.takeWhile isWsC, (r.dropWhile isWsC).drop 4, ?_, hp, ?_, ?_, ?_, hn.1⟩
      · rw [hl, hn.2]
        rw [List.append_assoc, List.append_assoc]
        congr 1
        rw [List.take_append_drop, List.takeWhile_append_dropWhile]
      · intro c hc
        exact List.mem_takeWhile_imp hc
      · rw [hn.2]; exact hcond.1
      · rw [hn.2]; exact hcond.2
    · rw [if_neg (by intro hcc; exact hcond ⟨hcc.1, hcc.2⟩)] at h
      exact absurd h (by simp)

/-- Backward characterization: any such decomposition makes `compAt` succeed
with exactly that length and digit payload. -/
theorem compAt_mk {p w ds rest : Str}
    (hp : p.map toLowerA = ("comp".toList)) (hw : ∀ c ∈ w, isWsC c = true)
    (hds : ds.length = 4) (hdig : ds.all isDigitC = true) :
    compAt (p ++ w ++ ds ++ rest) = some (8 + w.length, ds) := by
  rw [compAt, codeLitAt]
  have hm : matchLitCI ("comp".toList) (p ++ (w ++ ds ++ rest)) = some (w ++ ds ++ rest) :=
    matchLitCI_of_map hp
  have hassoc : p ++ w ++ ds ++ rest = p ++ (w ++ ds ++ rest) := by
    simp [List.append_assoc]
  rw [hassoc, hm]
  have hhead : ∀ c, (ds ++ rest).head? = some c → isWsC c = false := by
    intro c hc
    match ds, hds with
    | d1 :: d2 :: d3 :: d4 :: dd, hds =>
      have hlen0 : dd = [] := by
        simp only [List.length_cons] at hds
        exact List.eq_nil_of_length_eq_zero (by omega)
      subst hlen0
      have : c = d1 := by
        simp only [List.cons_append, List.head?_cons] at hc
        exact (Option.some.inj hc).symm
      subst this
      apply isWsC_not_digit
      simp only [List.all_cons, Bool.and_eq_true] at hdig
      exact hdig.1
  have htw := takeWhile_all_append hw (y := ds ++ rest) hhead
  rw [← List.append_assoc] at htw
  rw [List.append_assoc w ds rest] at htw
  have htw1 : (w ++ (ds ++ rest)).takeWhile isWsC = w := htw.1
  have htw2 : (w ++ (ds ++ rest)).dropWhile isWsC = ds ++ rest := htw.2
  simp only [List.append_assoc] at htw1 htw2 ⊢
  rw [htw1, htw2]
  have htake : (ds ++ rest).take 4 = ds := by
    rw [← hds]
    exact List.take_left ds rest
  simp only [htake, hds, hdig, and_self, if_pos]
  have h4 : ("comp".toList).length = 4 := rfl
  rw [h4]
  have h8 : 4 + w.length + 4 = 8 + w.length := by omega
  rw [h8]

/-! ## Search and append lemmas -/

theorem searchFirst_eq_none_iff {f : Str → Option α} :
    ∀ {l : Str}, searchFirst f l = none ↔ ∀ k, f (l.drop k) = none := by
  intro l
  induction l with
  | nil =>
    simp only [searchFirst, List.drop_nil]
    exact ⟨fun h _ => h, fun h => h 0⟩
  | cons c cs ih =>
    simp only [searchFirst]
    cases hf : f (c :: cs) with
    | some x =>
      simp only
      constructor
      · intro h; exact absurd h (by simp)
      · intro h
        have := h 0
        rw [List.drop_zero] at this
        rw [hf] at this
        exact absurd this (by simp)
    | none =>
      simp only
      rw [ih]
      constructor
      · intro h k
        match k with
        | 0 => simpa using hf
        | k + 1 => simpa using h k
      · intro h k
        simpa using h (k + 1)

theorem searchFirst_some_drop {f : Str → Option α} :
    ∀ {l : Str} {x : α}, searchFirst f l = some x → ∃ k, f (l.drop k) = some x := by
  intro l
  induction l with
  | nil =>
    intro x h
    exact ⟨0, by simpa [searchFirst] using h⟩
  | cons c cs ih =>
    intro x h
    simp only [searchFirst] at h
    cases hf : f (c :: cs) with
    | some y =>
      rw [hf] at h
      exact ⟨0, by rw [List.drop_zero, hf]; simpa using h⟩
    | none =>
      rw [hf] at h
      rcases ih h with ⟨k, hk⟩
      exact ⟨k + 1, by simpa using hk⟩

theorem searchFirst_cons_some {f : Str → Option α} {c : Char} {cs : Str} {x : α}
    (h : f (c :: cs) = some x) : searchFirst f (c :: cs) = some x := by
  simp [searchFirst, h]

theorem compAt_append {l b : Str} {x : Nat × Str} (h : compAt l = some x) :
    compAt (l ++ b) = some x := by
  obtain ⟨n, ds⟩ := x
  rcases compAt_decomp h with ⟨p, w, rest, hl, hp, hw, hds, hdig, hn⟩
  have heq : l ++ b = p ++ w ++ ds ++ (rest ++ b) := by
    rw [hl]; simp [List.append_assoc]
  rw [heq, compAt_mk hp hw hds hdig, hn]

/-! ## Invariance of the matchers under the upper-case map -/

theorem matchLitCI_map_upper : ∀ (pat l : Str),
    matchLitCI pat (l.map toUpperA) = (matchLitCI pat l).map (List.map toUpperA) := by
  intro pat
  induction pat with
  | nil => intro l; rfl
  | cons q qs ih =>
    intro l
    match l with
    | [] => rfl
    | c :: cs =>
      simp only [List.map_cons, matchLitCI, toLowerA_toUpperA]
      by_cases hc : toLowerA c = q
      · rw [if_pos hc, if_pos hc, ih]
      · rw [if_neg hc, if_neg hc]; rfl

theorem takeWhile_isWs_map_upper : ∀ l : Str,
    (l.map toUpperA).takeWhile isWsC = (l.takeWhile isWsC).map toUpperA := by
  intro l
  induction l with
  | nil => rfl
  | cons c cs ih =>
    simp only [List.map_cons, List.takeWhile_cons, isWsC_toUpperA]
    by_cases hc : isWsC c = true
    · rw [hc]
      simp only [if_true]
      rw [ih]
      rfl
    · have hc' : isWsC c = false := by
        cases hb : isWsC c
        · rfl
        · exact absurd hb hc
      rw [hc']
      rfl

theorem dropWhile_isWs_map_upper : ∀ l : Str,
    (l.map toUpperA).dropWhile isWsC = (l.dropWhile isWsC).map toUpperA := by
  intro l
  induction l with
  | nil => rfl
  | cons c cs ih =>
    simp only [List.map_cons, List.dropWhile_cons, isWsC_toUpperA]
    by_cases hc : isWsC c = true
    · rw [hc]
      simpa using ih
    · have hc' : isWsC c = false := by
        cases hb : isWsC c
        · rfl
        · exact absurd hb hc
      rw [hc']
      rfl

theorem all_isDigit_map_upper : ∀ l : Str,
    (l.map toUpperA).all isDigitC = l.all isDigitC := by
  intro l
  induction l with
  | nil => rfl
  | cons c cs ih =>
    simp only [List.map_cons, List.all_cons, isDigitC_toUpperA, ih]

theorem map_upper_digits {l : Str} (h : l.all isDigitC = true) :
    l.map toUpperA = l := by
  induction l with
  | nil => rfl
  | cons c cs ih =>
    simp only [List.all_cons, Bool.and_eq_true] at h
    simp only [List.map_cons, toUpperA_of_digit h.1, ih h.2]

theorem compAt_map_upper (l : Str) : compAt (l.map toUpperA) = compAt l := by
  cases hm : matchLitCI ("comp".toList) l with
  | none =>
    have hm2 : matchLitCI ("comp".toList) (l.map toUpperA) = none := by
      rw [matchLitCI_map_upper, hm]; rfl
    rw [compAt, compAt, codeLitAt, codeLitAt, hm, hm2]
  | some r =>
    have hm2 : matchLitCI ("comp".toList) (l.map toUpperA) = some (r.map toUpperA) := by
      rw [matchLitCI_map_upper, hm]; rfl
    rw [compAt, compAt, codeLitAt, codeLitAt, hm, hm2]
    simp only [dropWhile_isWs_map_upper, takeWhile_isWs_map_upper,
      ← List.map_take, List.length_map, all_isDigit_map_upper]
    by_cases hcond : ((r.dropWhile isWsC).take 4).length = 4 ∧
        ((r.dropWhile isWsC).take 4).all isDigitC = true
    · rw [if_pos ⟨hcond.1, hcond.2⟩, if_pos ⟨hcond.1, hcond.2⟩,
        map_upper_digits hcond.2]
    · rw [if_neg (fun hcc => hcond ⟨hcc.1, hcc.2⟩),
        if_neg (fun hcc => hcond ⟨hcc.1, hcc.2⟩)]

theorem searchFirst_compAt_map_upper : ∀ s : Str,
    searchFirst compAt (s.map toUpperA) = searchFirst compAt s := by
  intro s
  induction s with
  | nil => rfl
  | cons c cs ih =>
    simp only [List.map_cons, searchFirst]
    have := compAt_map_upper (c :: cs)
    simp only [List.map_cons] at this
    rw [this]
    cases compAt (c :: cs) with
    | some x => simp
    | none => simpa using ih

/-! ## Strip decomposition and C9 -/

theorem head_dropWhile_not {p : Char → Bool} :
    ∀ {l : Str} {c : Char}, (l.dropWhile p).head? = some c → p c = false := by
  intro l
  induction l with
  | nil => intro c h; simp at h
  | cons a as ih =>
    intro c h
    by_cases ha : p a = true
    · rw [List.dropWhile_cons, if_pos ha] at h
      exact ih h
    · have ha' : p a = false := by
        cases hb : p a
        · rfl
        · exact absurd hb ha
      rw [List.dropWhile_cons, if_neg (by rw [ha']; simp)] at h
      simp only [List.head?_cons] at h
      rw [← Option.some.inj h]
      exact ha'

theorem getLast_dropWhile {p : Char → Bool} :
    ∀ {l : Str}, l.dropWhile p ≠ [] → (l.dropWhile p).getLast? = l.getLast? := by
  intro l
  induction l with
  | nil => intro h; simp [List.dropWhile_nil] at h
  | cons a as ih =>
    intro h
    by_cases ha : p a = true
    · rw [List.dropWhile_cons, if_pos ha] at h ⊢
      have has : as ≠ [] := by
        intro hnil
        rw [hnil] at h
        exact h rfl
      rw [ih h]
      match as, has with
      | b :: bs, _ => rw [List.getLast?_cons_cons]
    · have ha' : p a = false := by
        cases hb : p a
        · rfl
        · exact absurd hb ha
      rw [List.dropWhile_cons, if_neg (by rw [ha']; simp)]

theorem stripWs_decomp (x : Str) :
    ∃ w₁ w₂, x = w₁ ++ stripWs x ++ w₂ ∧
      (∀ c ∈ w₁, isWsC c = true) ∧ (∀ c ∈ w₂, isWsC c = true) := by
  refine ⟨x.takeWhile isWsC,
    (((x.dropWhile isWsC).reverse).takeWhile isWsC).reverse, ?_, ?_, ?_⟩
  · rw [stripWs]
    conv_lhs => rw [← List.takeWhile_append_dropWhile (p := isWsC) (l := x)]
    rw [List.append_assoc]
    congr 1
    conv_lhs => rw [← List.reverse_reverse (x.dropWhile isWsC)]
    conv_lhs =>
      rw [← List.takeWhile_append_dropWhile (p := isWsC)
        (l := (x.dropWhile isWsC).reverse)]
    rw [List.reverse_append]
  · intro c hc
    exact List.mem_takeWhile_imp hc
  · intro c hc
    rw [List.mem_reverse] at hc
    exact List.mem_takeWhile_imp hc

theorem noEdgeWs_stripWs (x : Str) : noEdgeWs (stripWs x) = true := by
  rw [noEdgeWs, Bool.and_eq_true]
  constructor
  · cases hh : (stripWs x).head? with
    | none => rfl
    | some c =>
      simp only
      rw [stripWs, List.head?_reverse] at hh
      have hne : ((x.dropWhile isWsC).reverse).dropWhile isWsC ≠ [] := by
        intro hnil
        rw [hnil] at hh
        simp at hh
      rw [getLast_dropWhile hne, List.getLast?_reverse] at hh
      have := head_dropWhile_not hh
      rw [this]
      rfl
  · cases hh : (stripWs x).getLast? with
    | none => rfl
    | some c =>
      simp only
      rw [stripWs, List.getLast?_reverse] at hh
      have := head_dropWhile_not hh
      rw [this]
      rfl

theorem map_id_of_upper {l : Str} (h : ∀ c ∈ l, toUpperA c = c) :
    l.map toUpperA = l := by
  induction l with
  | nil => rfl
  | cons c cs ih =>
    simp only [List.map_cons, h c (by simp), ih (fun d hd => h d (by simp [hd]))]

/-- C9.  The code normalizer is idempotent: renormalizing its output changes
nothing, on both the pattern-match branch and the upper-cased-fallback
branch. -/
theorem c9_normalize_idempotent (s : Str) :
    normalize_course_code (normalize_course_code s) = normalize_course_code s := by
  cases hs : searchFirst compAt s with
  | some x =>
    obtain ⟨n, ds⟩ := x
    have hds : ds.length = 4 ∧ ds.all isDigitC = true := by
      rcases searchFirst_some_drop hs with ⟨k, hk⟩
      rcases compAt_decomp hk with ⟨p, w, rest, _, _, _, h4, hdig, _⟩
      exact ⟨h4, hdig⟩
    have h1 : normalize_course_code s = ("COMP ".toList) ++ ds := by
      rw [normalize_course_code, hs]
    rw [h1]
    have hcomp : compAt (("COMP ".toList) ++ ds) = some (9, ds) := by
      have heq : ("COMP ".toList) ++ ds = ("COMP".toList) ++ [' '] ++ ds ++ [] := by
        simp
      rw [heq]
      have := @compAt_mk ("COMP".toList) [' '] ds []
        (by decide) (by intro c hc; simp at hc; rw [hc]; rfl) hds.1 hds.2
      simpa using this
    have hsearch : searchFirst compAt (("COMP ".toList) ++ ds) = some (9, ds) := by
      have hshape : ("COMP ".toList) ++ ds = 'C' :: (("OMP ".toList) ++ ds) := rfl
      rw [hshape]
      apply searchFirst_cons_some
      rw [← hshape]
      exact hcomp
    rw [normalize_course_code, hsearch]
  | none =>
    have h1 : normalize_course_code s = stripWs (s.map toUpperA) := by
      rw [normalize_course_code, hs]
    set t := stripWs (s.map toUpperA) with ht
    rw [h1]
    have hmapnone : searchFirst compAt (s.map toUpperA) = none := by
      rw [searchFirst_compAt_map_upper]
      exact hs
    have hall := searchFirst_eq_none_iff.mp hmapnone
    rcases stripWs_decomp (s.map toUpperA) with ⟨w₁, w₂, hdec, hw₁, hw₂⟩
    rw [← ht] at hdec
    have htnone : searchFirst compAt t = none := by
      rw [searchFirst_eq_none_iff]
      intro k
      by_cases hk : k ≤ t.length
      · cases hc : compAt (t.drop k) with
        | none => rfl
        | some x =>
          exfalso
          have happ : compAt (t.drop k ++ w₂) = some x := compAt_append hc
          have hdrop : (s.map toUpperA).drop (w₁.length + k) = t.drop k ++ w₂ := by
            rw [hdec, List.append_assoc, List.drop_append,
              List.drop_append_of_le_length hk]
          rw [← hdrop] at happ
          rw [hall (w₁.length + k)] at happ
          exact Option.noConfusion happ
      · have : t.drop k = [] := List.drop_eq_nil_of_le (by omega)
        rw [this]
        rfl
    have hmapt : t.map toUpperA = t := by
      apply map_id_of_upper
      intro c hc
      have hcx : c ∈ s.map toUpperA := by
        rw [hdec]
        exact List.mem_append.mpr (Or.inl (List.mem_append.mpr (Or.inr hc)))
      rcases List.mem_map.mp hcx with ⟨c', _, hc'⟩
      rw [← hc', toUpperA_toUpperA]
    rw [normalize_course_code, hmapt, htnone, ht, stripWs_eq_self (noEdgeWs_stripWs _)]

/-! ## The assembler: level filter, failure isolation, credits -/

theorem except_bind_ok {ε α β : Type} (a : α) (f : α → Except ε β) :
    (Except.ok a : Except ε α) >>= f = f a := rfl

theorem except_bind_err {ε α β : Type} (e : ε) (f : α → Except ε β) :
    (Except.error e : Except ε α) >>= f = Except.error e := rfl

theorem except_map_ok {ε α β : Type} (g : α → β) (a : α) :
    (g <$> (Except.ok a : Except ε α)) = Except.ok (g a) := rfl

theorem except_map_err {ε α β : Type} (g : α → β) (e : ε) :
    (g <$> (Except.error e : Except ε α)) = Except.error e := rfl

theorem except_pure {ε α : Type} (a : α) :
    (pure a : Except ε α) = Except.ok a := rfl

/-- C7.  A raw entry whose (string) code classifies to level 5000 or above is
dropped by `process_course`, and its removal neither disturbs the other
records' presence nor their order: the batch with it equals the batch
without it. -/
theorem c7_graduate_filter (r : RawCourse) (c : Str) (l1 l2 : List RawCourse)
    (hc : r.codeF = some (.vStr c))
    (hl : 5000 ≤ extract_level (normalize_course_code c)) :
    process_course r = none ∧
    processBatch (l1 ++ r :: l2) = processBatch l1 ++ processBatch l2 ∧
    processBatch (l1 ++ r :: l2) = processBatch (l1 ++ l2) := by
  have hnone : process_course r = none := by
    rw [process_course]
    by_cases hce : normalize_course_code c = []
    · simp [processCourseE, hc, asStr, hce, except_bind_ok, except_pure]
    · simp [processCourseE, hc, asStr, hce, hl, except_bind_ok, except_pure]
  refine ⟨hnone, ?_, ?_⟩
  · rw [processBatch, processBatch, processBatch, List.filterMap_append,
      List.filterMap_cons, hnone]
  · rw [processBatch, processBatch, List.filterMap_append, List.filterMap_append,
      List.filterMap_cons, hnone]

/-- C7 witness: a concrete COMP 5100 entry between two well-formed entries. -/
theorem c7_witness :
    process_course { codeF := some (.vStr ("COMP 5100".toList)) } = none ∧
    processBatch ([{ codeF := some (.vStr ("COMP 1405".toList)) }] ++
        { codeF := some (.vStr ("COMP 5100".toList)) } ::
        [{ codeF := some (.vStr ("COMP 2402".toList)) }]) =
      processBatch [{ codeF := some (.vStr ("COMP 1405".toList)) }] ++
      processBatch [{ codeF := some (.vStr ("COMP 2402".toList)) }] ∧
    processBatch ([{ codeF := some (.vStr ("COMP 1405".toList)) }] ++
        { codeF := some (.vStr ("COMP 5100".toList)) } ::
        [{ codeF := some (.vStr ("COMP 2402".toList)) }]) =
      processBatch ([{ codeF := some (.vStr ("COMP 1405".toList)) }] ++
        [{ codeF := some (.vStr ("COMP 2402".toList)) }]) :=
  c7_graduate_filter _ _ _ _ rfl (by decide)

/-- C8.  Every exception raised inside the body of `process_course` is caught
at the assembler boundary (an erroring body yields `none`, never a
propagated error), and the rest of the batch is unaffected: the batch output
decomposes entrywise around any entry. -/
theorem c8_error_isolation (r : RawCourse) (l1 l2 : List RawCourse) :
    (∀ e, processCourseE r = .error e → process_course r = none) ∧
    processBatch (l1 ++ r :: l2) =
      processBatch l1 ++ (process_course r).toList ++ processBatch l2 := by
  constructor
  · intro e he
    rw [process_course, he]
  · rw [processBatch, processBatch, processBatch, List.filterMap_append,
      List.filterMap_cons]
    cases process_course r with
    | none => simp
    | some rec => simp

/-- C8 witness: a concrete malformed entry (credits `None` raises in
`float()`) between two well-formed entries; the failure is caught, the entry
skipped, and the neighbours survive. -/
theorem c8_witness :
    process_course { codeF := some (.vStr ("COMP 2402".toList)),
                     credF := some .vNone } = none ∧
    processBatch ([{ codeF := some (.vStr ("COMP 1405".toList)) }] ++
        { codeF := some (.vStr ("COMP 2402".toList)), credF := some .vNone } ::
        [{ codeF := some (.vStr ("COMP 1005".toList)) }]) =
      processBatch [{ codeF := some (.vStr ("COMP 1405".toList)) }] ++
      (process_course { codeF := some (.vStr ("COMP 2402".toList)),
                        credF := some .vNone }).toList ++
      processBatch [{ codeF := some (.vStr ("COMP 1005".toList)) }] :=
  ⟨(c8_error_isolation _ [] []).1 .notNum rfl,
   (c8_error_isolation _ _ _).2⟩

/-- C10.  A present credits value that is neither a string nor castable by
`float()` (`None` or a list) makes the whole course drop out of the batch;
when the earlier code and level gates pass and the other string fields are
well-shaped, the drop happens precisely through the raised-and-caught cast
error.  The 0.5 default is used exactly for an absent field, a string with
no decimal number, while a numeric value is cast as-is. -/
theorem c10_bad_credits (r : RawCourse) (v : PyVal)
    (hv : r.credF = some v)
    (hbad : v = .vNone ∨ ∃ l, v = .vList l) :
    process_course r = none ∧
    (∀ c, r.codeF = some (.vStr c) → normalize_course_code c ≠ [] →
      extract_level (normalize_course_code c) < 5000 →
      (∀ t, r.titleF = some t → ∃ ts, t = .vStr ts) →
      (∀ d, r.descF = some d → ∃ dstr, d = .vStr dstr) →
      processCourseE r = .error .notNum) ∧
    floatCredits .vNone = .error .notNum ∧
    (∀ s : Str, searchFirst numAt s = none → floatCredits (.vStr s) = .ok (1 / 2)) ∧
    floatCredits ((none : Option PyVal).getD (.vNum (1 / 2))) = .ok (1 / 2) ∧
    (∀ q : ℚ, floatCredits (.vNum q) = .ok q) := by
  have hfc : floatCredits (r.credF.getD (.vNum (1 / 2))) = .error .notNum := by
    rw [hv]
    rcases hbad with h | ⟨l, h⟩ <;> rw [h] <;> rfl
  have hfc2 : floatCredits (r.credF.getD (.vNum (2⁻¹ : ℚ))) = .error .notNum := by
    have h12 : ((2⁻¹ : ℚ)) = 1 / 2 := by norm_num
    rw [h12]
    exact hfc
  have hmech : ∀ c, r.codeF = some (.vStr c) → normalize_course_code c ≠ [] →
      extract_level (normalize_course_code c) < 5000 →
      (∀ t, r.titleF = some t → ∃ ts, t = .vStr ts) →
      (∀ d, r.descF = some d → ∃ dstr, d = .vStr dstr) →
      processCourseE r = .error .notNum := by
    intro c hc hne hlt htOk hdOk
    have hT : ∃ ts, r.titleF.getD (.vStr []) = .vStr ts := by
      cases ht : r.titleF with
      | none => exact ⟨[], rfl⟩
      | some t =>
        rcases htOk t ht with ⟨ts, hts⟩
        exact ⟨ts, by rw [hts]; rfl⟩
    have hD : ∃ dstr, r.descF.getD (.vStr []) = .vStr dstr := by
      cases hd : r.descF with
      | none => exact ⟨[], rfl⟩
      | some d =>
        rcases hdOk d hd with ⟨dstr, hds⟩
        exact ⟨dstr, by rw [hds]; rfl⟩
    rcases hT with ⟨ts, hT⟩
    rcases hD with ⟨dstr, hD⟩
    have hlt' : ¬ (5000 ≤ extract_level (normalize_course_code c)) := by omega
    simp [processCourseE, hc, asStr, hne, hlt', hT, hD, hfc, hfc2,
      except_bind_ok, except_bind_err, except_pure]
  refine ⟨?_, hmech, rfl, ?_, rfl, fun q => rfl⟩
  · rw [process_course]
    cases hc : r.codeF with
    | none =>
      have hn : normalize_course_code ([] : Str) = [] := rfl
      simp [processCourseE, hc, asStr, hn, except_bind_ok, except_pure]
    | some v' =>
      cases v' with
      | vStr c =>
        by_cases hce : normalize_course_code c = []
        · simp [processCourseE, hc, asStr, hce, except_bind_ok, except_pure]
        · by_cases hlev : 5000 ≤ extract_level (normalize_course_code c)
          · simp [processCourseE, hc, asStr, hce, hlev, except_bind_ok, except_pure]
          · cases hT : r.titleF.getD (.vStr []) with
            | vStr ts =>
              cases hD : r.descF.getD (.vStr []) with
              | vStr dstr =>
                simp [processCourseE, hc, asStr, hce, hlev, hT, hD, hfc, hfc2,
                  except_bind_ok, except_bind_err, except_pure]
              | vNum q =>
                simp [processCourseE, hc, asStr, hce, hlev, hT, hD,
                  except_bind_ok, except_bind_err, except_pure]
              | vNone =>
                simp [processCourseE, hc, asStr, hce, hlev, hT, hD,
                  except_bind_ok, except_bind_err, except_pure]
              | vList l =>
                simp [processCourseE, hc, asStr, hce, hlev, hT, hD,
                  except_bind_ok, except_bind_err, except_pure]
            | vNum q =>
              simp [processCourseE, hc, asStr, hce, hlev, hT,
                except_bind_ok, except_bind_err, except_pure]
            | vNone =>
              simp [processCourseE, hc, asStr, hce, hlev, hT,
                except_bind_ok, except_bind_err, except_pure]
            | vList l =>
              simp [processCourseE, hc, asStr, hce, hlev, hT,
                except_bind_ok, except_bind_err, except_pure]
      | vNum q =>
        simp [processCourseE, hc, asStr, except_bind_ok, except_bind_err]
      | vNone =>
        simp [processCourseE, hc, asStr, except_bind_ok, except_bind_err]
      | vList l =>
        simp [processCourseE, hc, asStr, except_bind_ok, except_bind_err]
  · intro s hs
    simp [floatCredits, hs]

/-- C10 witness: a concrete entry with `credits = None` is dropped, and the
drop goes through the raised cast error. -/
theorem c10_witness :
    process_course { codeF := some (.vStr ("COMP 2402".toList)),
                     credF := some .vNone } = none ∧
    processCourseE { codeF := some (.vStr ("COMP 2402".toList)),
                     credF := some .vNone } = .error .notNum := by
  have h := c10_bad_credits
    { codeF := some (.vStr ("COMP 2402".toList)), credF := some .vNone }
    .vNone rfl (Or.inl rfl)
  refine ⟨h.1, ?_⟩
  refine h.2.1 ("COMP 2402".toList) rfl (by decide) (by decide) ?_ ?_
  · intro t ht
    exact absurd ht (by simp)
  · intro d hd
    exact absurd hd (by simp)

/-! ## Scan lemmas: positions, ordering, splitting at barrier characters -/

theorem mem_scanPF {f : Str → Option Nat}
    (Hlen : ∀ l n, f l = some n → 1 ≤ n ∧ n ≤ l.length) :
    ∀ (fuel : Nat) (l : Str) (i a b : Nat), l.length ≤ fuel →
      (a, b) ∈ scanPF f fuel l i →
      i ≤ a ∧ a < b ∧ b ≤ i + l.length ∧ f (l.drop (a - i)) = some (b - a) := by
  intro fuel
  induction fuel with
  | zero =>
    intro l i a b _ hm
    simp [scanPF] at hm
  | succ fuel ih =>
    intro l i a b hl hm
    match l with
    | [] => simp [scanPF] at hm
    | c :: cs =>
      rw [scanPF] at hm
      cases hf : f (c :: cs) with
      | some n =>
        rw [hf] at hm
        have hn := Hlen _ _ hf
        simp only [List.length_cons] at hn hl
        rcases List.mem_cons.mp hm with hm' | hm'
        · have ha : a = i := congrArg Prod.fst hm'
          have hb : b = i + n := congrArg Prod.snd hm'
          subst ha; subst hb
          refine ⟨Nat.le_refl _, by omega, by simp only [List.length_cons]; omega, ?_⟩
          rw [Nat.sub_self, List.drop_zero, hf]
          congr 1
          omega
        · have hlen2 : (cs.drop (n - 1)).length ≤ fuel := by
            simp only [List.length_drop]
            omega
          have := ih (cs.drop (n - 1)) (i + n) a b hlen2 hm'
          rcases this with ⟨h1, h2, h3, h4⟩
          refine ⟨by omega, h2, ?_, ?_⟩
          · simp only [List.length_drop] at h3
            simp only [List.length_cons]
            omega
          · rw [List.drop_drop] at h4
            have heq : (c :: cs).drop (a - i) = cs.drop (a - i - 1) := by
              have : a - i = (a - i - 1) + 1 := by omega
              rw [this]
              rfl
            rw [heq]
            have harith : n - 1 + (a - (i + n)) = a - i - 1 := by omega
            rw [harith] at h4
            exact h4
      | none =>
        rw [hf] at hm
        have hlen2 : cs.length ≤ fuel := by
          simp only [List.length_cons] at hl
          omega
        have := ih cs (i + 1) a b hlen2 hm
        rcases this with ⟨h1, h2, h3, h4⟩
        refine ⟨by omega, h2, ?_, ?_⟩
        · simp only [List.length_cons]
          omega
        · have heq : (c :: cs).drop (a - i) = cs.drop (a - i - 1) := by
            have : a - i = (a - i - 1) + 1 := by omega
            rw [this]
            rfl
          rw [heq]
          have harith : a - (i + 1) = a - i - 1 := by omega
          rw [harith] at h4
          exact h4

theorem scanPF_chain {f : Str → Option Nat}
    (Hlen : ∀ l n, f l = some n → 1 ≤ n ∧ n ≤ l.length) :
    ∀ (fuel : Nat) (l : Str) (i : Nat), l.length ≤ fuel →
      List.Pairwise (fun g g' => g.2 ≤ g'.1) (scanPF f fuel l i) := by
  intro fuel
  induction fuel with
  | zero => intro l i _; simp [scanPF]
  | succ fuel ih =>
    intro l i hl
    match l with
    | [] => simp [scanPF]
    | c :: cs =>
      rw [scanPF]
      cases hf : f (c :: cs) with
      | some n =>
        have hn := Hlen _ _ hf
        simp only [List.length_cons] at hn hl
        have hlen2 : (cs.drop (n - 1)).length ≤ fuel := by
          simp only [List.length_drop]
          omega
        refine List.Pairwise.cons ?_ (ih _ _ hlen2)
        intro g hg
        have := mem_scanPF Hlen fuel (cs.drop (n - 1)) (i + n) g.1 g.2 hlen2 (by simpa using hg)
        simpa using this.1
      | none =>
        have hlen2 : cs.length ≤ fuel := by
          simp only [List.length_cons] at hl
          omega
        exact ih cs (i + 1) hlen2

theorem scanPF_fuel_irrel {f : Str → Option Nat} :
    ∀ (fuel fuel' : Nat) (l : Str) (i : Nat),
      l.length ≤ fuel → l.length ≤ fuel' →
      scanPF f fuel l i = scanPF f fuel' l i := by
  intro fuel
  induction fuel with
  | zero =>
    intro fuel' l i hl _
    match l, hl with
    | [], _ =>
      cases fuel' <;> rfl
  | succ fuel ih =>
    intro fuel' l i hl hl'
    match l with
    | [] => cases fuel' <;> rfl
    | c :: cs =>
      match fuel' with
      | 0 => simp at hl'
      | fuel' + 1 =>
        rw [scanPF, scanPF]
        simp only [List.length_cons] at hl hl'
        cases hf : f (c :: cs) with
        | some n =>
          have h1 : (cs.drop (n - 1)).length ≤ fuel := by
            simp only [List.length_drop]; omega
          have h2 : (cs.drop (n - 1)).length ≤ fuel' := by
            simp only [List.length_drop]; omega
          simp only [ih fuel' _ _ h1 h2]
        | none =>
          simp only [ih fuel' cs (i + 1) (by omega) (by omega)]

theorem scanPF_shift {f : Str → Option Nat} :
    ∀ (fuel : Nat) (l : Str) (i : Nat),
      scanPF f fuel l i = (scanPF f fuel l 0).map (fun g => (g.1 + i, g.2 + i)) := by
  intro fuel
  induction fuel with
  | zero => intro l i; rfl
  | succ fuel ih =>
    intro l i
    match l with
    | [] => rfl
    | c :: cs =>
      rw [scanPF, scanPF]
      cases hf : f (c :: cs) with
      | some n =>
        simp only [List.map_cons]
        rw [ih (cs.drop (n - 1)) (i + n), ih (cs.drop (n - 1)) (0 + n), List.map_map]
        congr 1
        · have e1 : 0 + i = i := by omega
          have e2 : 0 + n + i = i + n := by omega
          rw [e1, e2]
        · apply List.map_congr_left
          intro g _
          have e1 : g.1 + (i + n) = g.1 + (0 + n) + i := by omega
          have e2 : g.2 + (i + n) = g.2 + (0 + n) + i := by omega
          simp only [Function.comp]
          rw [← e1, ← e2]
      | none =>
        simp only
        rw [ih cs (i + 1), ih cs (0 + 1), List.map_map]
        apply List.map_congr_left
        intro g _
        have e1 : g.1 + (i + 1) = g.1 + (0 + 1) + i := by omega
        have e2 : g.2 + (i + 1) = g.2 + (0 + 1) + i := by omega
        simp only [Function.comp]
        rw [← e1, ← e2]

theorem compAtLen_spec : ∀ (l : Str) (n : Nat), compAtLen l = some n →
    1 ≤ n ∧ n ≤ l.length := by
  intro l n h
  rw [compAtLen] at h
  cases hc : compAt l with
  | none => rw [hc] at h; exact absurd h (by simp)
  | some y =>
    rw [hc] at h
    obtain ⟨n', ds⟩ := y
    have hn : n = n' := by simpa using h.symm
    subst hn
    rcases compAt_decomp hc with ⟨p, w, rest, heq, hp, hw, hds, hdig, hnn⟩
    have hpl : p.length = 4 := by
      have := congrArg List.length hp
      simpa using this
    constructor
    · omega
    · rw [heq]
      simp only [List.length_append]
      omega

theorem compAt_barrier {x : Char}
    (hxc : ∀ q ∈ ("comp".toList), toLowerA x ≠ q)
    (hxw : isWsC x = false) (hxd : isDigitC x = false) :
    ∀ (u v : Str), compAt (u ++ x :: v) = compAt u := by
  intro u v
  cases hu : compAt u with
  | some y => exact compAt_append hu
  | none =>
    cases hx2 : compAt (u ++ x :: v) with
    | none => rfl
    | some y =>
      exfalso
      obtain ⟨n, ds⟩ := y
      rcases compAt_decomp hx2 with ⟨p, w, rest, heq, hp, hw, hds, hdig, hn⟩
      have heq' : u ++ x :: v = (p ++ w ++ ds) ++ rest := by
        rw [heq]
      by_cases hL : (p ++ w ++ ds).length ≤ u.length
      · have htakeL : (u ++ x :: v).take (p ++ w ++ ds).length =
            u.take (p ++ w ++ ds).length := by
          rw [List.take_append_eq_append_take, Nat.sub_eq_zero_of_le hL]
          simp
        have htakeR : ((p ++ w ++ ds) ++ rest).take (p ++ w ++ ds).length =
            p ++ w ++ ds := List.take_left _ _
        have hu' : u.take (p ++ w ++ ds).length = p ++ w ++ ds := by
          rw [← htakeL, heq', htakeR]
        have hudec : u = p ++ w ++ ds ++ u.drop (p ++ w ++ ds).length := by
          conv_lhs => rw [← List.take_append_drop (p ++ w ++ ds).length u]
          rw [hu']
        have := @compAt_mk p w ds (u.drop (p ++ w ++ ds).length) hp hw hds hdig
        rw [← hudec] at this
        rw [hu] at this
        exact Option.noConfusion this
      · have hlt : u.length < (p ++ w ++ ds).length := by omega
        have htakeL : (u ++ x :: v).take (u.length + 1) = u ++ [x] := by
          rw [List.take_append_eq_append_take,
            List.take_of_length_le (by omega)]
          have : u.length + 1 - u.length = 1 := by omega
          rw [this]
          rfl
        have htakeR : ((p ++ w ++ ds) ++ rest).take (u.length + 1) =
            (p ++ w ++ ds).take (u.length + 1) := by
          rw [List.take_append_of_le_length (by omega)]
        have hxmem : x ∈ p ++ w ++ ds := by
          apply List.mem_of_mem_take (n := u.length + 1)
          rw [← htakeR, ← heq', htakeL]
          simp
        rcases List.mem_append.mp hxmem with hx' | hx'
        · rcases List.mem_append.mp hx' with hx'' | hx''
          · have : toLowerA x ∈ p.map toLowerA := List.mem_map.mpr ⟨x, hx'', rfl⟩
            rw [hp] at this
            exact hxc _ this rfl
          · rw [hw x hx''] at hxw
            exact Bool.noConfusion hxw
        · have : isDigitC x = true := by
            have hall := hdig
            rw [List.all_eq_true] at hall
            exact hall x hx'
          rw [this] at hxd
          exact Bool.noConfusion hxd

theorem compAtLen_barrier {x : Char}
    (hxc : ∀ q ∈ ("comp".toList), toLowerA x ≠ q)
    (hxw : isWsC x = false) (hxd : isDigitC x = false) :
    ∀ (u v : Str), compAtLen (u ++ x :: v) = compAtLen u := by
  intro u v
  rw [compAtLen, compAtLen, compAt_barrier hxc hxw hxd]

theorem scanPF_cons_some {f : Str → Option Nat} {fuel : Nat} {c : Char}
    {cs : Str} {i n : Nat} (h : f (c :: cs) = some n) :
    scanPF f (fuel + 1) (c :: cs) i =
      (i, i + n) :: scanPF f fuel (cs.drop (n - 1)) (i + n) := by
  rw [scanPF, h]

theorem scanPF_cons_none {f : Str → Option Nat} {fuel : Nat} {c : Char}
    {cs : Str} {i : Nat} (h : f (c :: cs) = none) :
    scanPF f (fuel + 1) (c :: cs) i = scanPF f fuel cs (i + 1) := by
  rw [scanPF, h]

theorem scanPF_split {f : Str → Option Nat} {x : Char}
    (Hx : ∀ u v : Str, f (u ++ x :: v) = f u)
    (Hnil : f [] = none)
    (Hlen : ∀ l n, f l = some n → 1 ≤ n ∧ n ≤ l.length) :
    ∀ (fuel : Nat) (u v : Str) (i : Nat), (u ++ x :: v).length ≤ fuel →
      scanPF f fuel (u ++ x :: v) i =
        scanPF f u.length u i ++ scanPF f v.length v (i + u.length + 1) := by
  intro fuel
  induction fuel with
  | zero =>
    intro u v i hl
    simp at hl
  | succ fuel ih =>
    intro u v i hl
    match u with
    | [] =>
      have hx : f (x :: v) = none := by
        have := Hx [] v
        simpa [Hnil] using this
      rw [List.nil_append] at hl ⊢
      rw [scanPF, hx]
      simp only [List.length_nil, scanPF]
      simp only [List.length_cons] at hl
      rw [scanPF_fuel_irrel fuel v.length v (i + 1) (by omega) (Nat.le_refl _)]
      have : i + 0 + 1 = i + 1 := by omega
      rw [this]
      rfl
    | c :: u' =>
      have hfc : f (c :: (u' ++ x :: v)) = f (c :: u') := by
        rw [← List.cons_append]
        exact Hx (c :: u') v
      simp only [List.length_append, List.length_cons] at hl
      cases hf : f (c :: u') with
      | some n =>
        have hn := Hlen _ _ hf
        simp only [List.length_cons] at hn
        have hstep : scanPF f (fuel + 1) ((c :: u') ++ x :: v) i =
            (i, i + n) :: scanPF f fuel ((u' ++ x :: v).drop (n - 1)) (i + n) := by
          rw [List.cons_append]
          exact scanPF_cons_some (hfc.trans hf)
        have hdrop : (u' ++ x :: v).drop (n - 1) = u'.drop (n - 1) ++ x :: v := by
          rw [List.drop_append_of_le_length (by omega)]
        have hlen2 : (u'.drop (n - 1) ++ x :: v).length ≤ fuel := by
          simp only [List.length_append, List.length_drop, List.length_cons]
          omega
        have hstep2 : scanPF f (c :: u').length (c :: u') i =
            (i, i + n) :: scanPF f u'.length (u'.drop (n - 1)) (i + n) := by
          rw [List.length_cons]
          exact scanPF_cons_some hf
        rw [hstep, hdrop, ih (u'.drop (n - 1)) v (i + n) hlen2, hstep2]
        rw [scanPF_fuel_irrel (u'.drop (n - 1)).length u'.length (u'.drop (n - 1)) (i + n)
          (Nat.le_refl _) (by simp only [List.length_drop]; omega)]
        have harith : i + n + (u'.drop (n - 1)).length + 1 = i + (c :: u').length + 1 := by
          simp only [List.length_drop, List.length_cons]
          omega
        rw [harith]
        simp
      | none =>
        have hstep : scanPF f (fuel + 1) ((c :: u') ++ x :: v) i =
            scanPF f fuel (u' ++ x :: v) (i + 1) := by
          rw [List.cons_append]
          exact scanPF_cons_none (hfc.trans hf)
        have hlen2 : (u' ++ x :: v).length ≤ fuel := by
          simp only [List.length_append, List.length_cons]
          omega
        have hstep2 : scanPF f (c :: u').length (c :: u') i =
            scanPF f u'.length u' (i + 1) := by
          rw [List.length_cons]
          exact scanPF_cons_none hf
        rw [hstep, ih u' v (i + 1) hlen2, hstep2]
        have harith : i + 1 + u'.length + 1 = i + (c :: u').length + 1 := by
          simp only [List.length_cons]
          omega
        rw [harith]

/-! ## C5: canonical code shape -/

/-- Normalized match payloads: every `COMP`-pattern occurrence normalizes to
`COMP ` followed by its four digits. -/
theorem codeMatch_normalize {s : Str} {a b : Nat} (h : (a, b) ∈ codeMatches s) :
    ∃ ds, normalize_course_code (sliceStr s a b) = ("COMP ".toList) ++ ds ∧
      ds.length = 4 ∧ ds.all isDigitC = true := by
  have hm := mem_scanPF compAtLen_spec s.length s 0 a b (Nat.le_refl _) h
  rcases hm with ⟨-, hab, hb, hf⟩
  rw [Nat.sub_zero] at hf
  rw [compAtLen] at hf
  cases hc : compAt (s.drop a) with
  | none => rw [hc] at hf; exact absurd hf (by simp)
  | some y =>
    obtain ⟨n, ds⟩ := y
    rw [hc] at hf
    have hnba : n = b - a := by simpa using hf
    rcases compAt_decomp hc with ⟨p, w, rest, heq, hp, hw, hds, hdig, hn⟩
    refine ⟨ds, ?_, hds, hdig⟩
    have hpl : p.length = 4 := by
      have := congrArg List.length hp
      simpa using this
    have hslice : sliceStr s a b = p ++ w ++ ds := by
      rw [sliceStr, heq]
      have hlen : (p ++ w ++ ds).length = b - a := by
        simp only [List.length_append]
        omega
      rw [← hlen]
      exact List.take_left _ _
    rw [hslice]
    have hcomp : compAt (p ++ w ++ ds) = some (8 + w.length, ds) := by
      have := @compAt_mk p w ds [] hp hw hds hdig
      simpa using this
    match p, hpl with
    | c0 :: p', _ =>
      have hshape : (c0 :: p') ++ w ++ ds = c0 :: (p' ++ w ++ ds) := by simp
      have hsearch : searchFirst compAt ((c0 :: p') ++ w ++ ds) =
          some (8 + w.length, ds) := by
        rw [hshape]
        apply searchFirst_cons_some
        rw [← hshape]
        exact hcomp
      rw [normalize_course_code, hsearch]

def isUpperL (c : Char) : Bool := 'A' ≤ c && c ≤ 'Z'

/-- The canonical shape demanded by the specification: a non-empty run of
upper-case letters, one space, exactly four digits, nothing else. -/
def canonShape (s : Str) : Bool :=
  decide (s.takeWhile isUpperL ≠ []) &&
    (match s.dropWhile isUpperL with
     | ' ' :: ds => decide (ds.length = 4) && ds.all isDigitC
     | _ => false)

theorem canonShape_comp {ds : Str} (h4 : ds.length = 4)
    (hd : ds.all isDigitC = true) :
    canonShape (("COMP ".toList) ++ ds) = true := by
  have hC : isUpperL 'C' = true := rfl
  have hO : isUpperL 'O' = true := rfl
  have hM : isUpperL 'M' = true := rfl
  have hP : isUpperL 'P' = true := rfl
  have hsp : isUpperL ' ' = false := rfl
  have h1 : ("COMP ".toList) ++ ds = 'C' :: 'O' :: 'M' :: 'P' :: ' ' :: ds := rfl
  rw [h1, canonShape]
  simp only [List.takeWhile_cons, List.dropWhile_cons, hC, hO, hM, hP, hsp]
  simp [h4, hd]

theorem gpGo_code_of_mem {s : Str} {groups : List (Nat × Nat × List Str)} :
    ∀ {ms : List (Nat × Nat)} {seen : List Str} {e : Prereq},
      e ∈ gpGo s groups ms seen →
      ∃ a b, (a, b) ∈ ms ∧ e.code = normalize_course_code (sliceStr s a b) := by
  intro ms
  induction ms with
  | nil => intro seen e h; simp [gpGo] at h
  | cons m ms ih =>
    intro seen e h
    rw [gpGo] at h
    by_cases hseen : normalize_course_code (sliceStr s m.1 m.2) ∈ seen
    · rw [if_pos hseen] at h
      rcases ih h with ⟨a, b, hab, hcode⟩
      exact ⟨a, b, by simp [hab], hcode⟩
    · rw [if_neg hseen] at h
      rcases List.mem_cons.mp h with h' | h'
      · exact ⟨m.1, m.2, by simp, by rw [h']⟩
      · rcases ih h' with ⟨a, b, hab, hcode⟩
        exact ⟨a, b, by simp [hab], hcode⟩

theorem keepFirstFrom_sub : ∀ {l : List Str} {seen : List Str} {c : Str},
    c ∈ keepFirstFrom seen l → c ∈ l := by
  intro l
  induction l with
  | nil => intro seen c h; simp [keepFirstFrom] at h
  | cons a as ih =>
    intro seen c h
    rw [keepFirstFrom] at h
    by_cases ha : a ∈ seen
    · rw [if_pos ha] at h
      exact List.mem_cons.mpr (Or.inr (ih h))
    · rw [if_neg ha] at h
      rcases List.mem_cons.mp h with h' | h'
      · exact List.mem_cons.mpr (Or.inl h')
      · exact List.mem_cons.mpr (Or.inr (ih h'))

theorem parseSpan_code_canon {s : Str} {e : Prereq} (h : e ∈ parseSpan s) :
    canonShape e.code = true := by
  have hcode : e.code ∈ (parseSpan s).map Prereq.code :=
    List.mem_map.mpr ⟨e, h, rfl⟩
  rw [parseSpan] at hcode
  have hmap := dedupGo_codes (resolveSpan s) [] []
  rw [← dedup] at hmap
  rw [hmap] at hcode
  simp only [List.map_nil, List.nil_append] at hcode
  have hsub : e.code ∈ (resolveSpan s).map Prereq.code := keepFirstFrom_sub hcode
  rcases List.mem_map.mp hsub with ⟨e', he', hce⟩
  have : ∃ a b, (a, b) ∈ codeMatches s ∧
      e'.code = normalize_course_code (sliceStr s a b) := by
    rw [resolveSpan] at he'
    by_cases hcond : hasSimpleOr s = true ∧ ¬ hasParenOr s = true
    · rw [if_pos hcond] at he'
      rcases List.mem_map.mp he' with ⟨m, hm, hme⟩
      exact ⟨m.1, m.2, hm, by rw [← hme]⟩
    · rw [if_neg hcond] at he'
      exact gpGo_code_of_mem he'
  rcases this with ⟨a, b, hab, hcode'⟩
  rcases codeMatch_normalize hab with ⟨ds, hnorm, h4, hdig⟩
  rw [← hce, hcode', hnorm]
  exact canonShape_comp h4 hdig

theorem parse_prereq_canon {t : Str} {e : Prereq}
    (h : e ∈ parse_prerequisites t) : canonShape e.code = true := by
  rw [parse_prerequisites] at h
  by_cases ht : t = []
  · rw [if_pos ht] at h
    simp at h
  · rw [if_neg ht] at h
    cases hseg : segPrereq t with
    | none => rw [hseg] at h; simp at h
    | some span =>
      rw [hseg] at h
      exact parseSpan_code_canon h

theorem parsePrereqVal_ok {x : PyVal} {ps : List Prereq}
    (h : parsePrereqVal x = .ok ps) :
    ps = [] ∨ ∃ t, ps = parse_prerequisites t := by
  by_cases ht : truthy x = true
  · cases x with
    | vStr s =>
      right
      refine ⟨s, ?_⟩
      have hv : parsePrereqVal (.vStr s) = .ok (parse_prerequisites s) := by
        simp [parsePrereqVal, ht]
      rw [hv] at h
      simpa using h.symm
    | vNum q =>
      have hv : parsePrereqVal (.vNum q) = .error .notStr := by
        simp [parsePrereqVal, ht]
      rw [hv] at h
      exact absurd h (by simp)
    | vNone =>
      have hv : parsePrereqVal .vNone = .error .notStr := by
        simp [parsePrereqVal, ht]
      rw [hv] at h
      exact absurd h (by simp)
    | vList l =>
      have hv : parsePrereqVal (.vList l) = .error .notStr := by
        simp [parsePrereqVal, ht]
      rw [hv] at h
      exact absurd h (by simp)
  · left
    have hv : parsePrereqVal x = .ok [] := by
      simp [parsePrereqVal, ht]
    rw [hv] at h
    simpa using h.symm

/-- Structure of a successfully assembled record: its code is the normalized
raw code string, and its prerequisite list is empty or the parse of some
text. -/
theorem process_course_some_spec {r : RawCourse} {rec : CourseRecord}
    (h : process_course r = some rec) :
    ∃ c, r.codeF.getD (.vStr []) = .vStr c ∧
      rec.code = normalize_course_code c ∧
      (rec.prerequisites = [] ∨ ∃ t, rec.prerequisites = parse_prerequisites t) := by
  rw [process_course] at h
  cases he : processCourseE r with
  | error e =>
    rw [he] at h
    exact absurd h (by simp)
  | ok v =>
    rw [he] at h
    simp only at h
    subst h
    cases hcf : r.codeF with
    | none =>
      exfalso
      have hn : normalize_course_code ([] : Str) = [] := rfl
      simp [processCourseE, hcf, asStr, hn, except_bind_ok, except_pure] at he
    | some v' =>
      cases v' with
      | vStr c =>
        refine ⟨c, by simp [hcf], ?_⟩
        by_cases hce : normalize_course_code c = []
        · exfalso
          simp [processCourseE, hcf, asStr, hce, except_bind_ok, except_pure] at he
        · by_cases hlev : 5000 ≤ extract_level (normalize_course_code c)
          · exfalso
            simp [processCourseE, hcf, asStr, hce, hlev, except_bind_ok,
              except_pure] at he
          · cases hT : r.titleF.getD (.vStr []) with
            | vStr ts =>
              cases hD : r.descF.getD (.vStr []) with
              | vStr dstr =>
                cases hcred : floatCredits (r.credF.getD (.vNum (1 / 2))) with
                | error e =>
                  exfalso
                  have hcred2 : floatCredits (r.credF.getD (.vNum (2⁻¹ : ℚ))) =
                      .error e := by
                    have h12 : ((2⁻¹ : ℚ)) = 1 / 2 := by norm_num
                    rw [h12]
                    exact hcred
                  simp [processCourseE, hcf, asStr, hce, hlev, hT, hD, hcred, hcred2,
                    except_bind_ok, except_bind_err, except_pure] at he
                | ok q =>
                  have hcred2 : floatCredits (r.credF.getD (.vNum (2⁻¹ : ℚ))) =
                      .ok q := by
                    have h12 : ((2⁻¹ : ℚ)) = 1 / 2 := by norm_num
                    rw [h12]
                    exact hcred
                  cases hpp : parsePrereqVal
                      (if truthy (r.prereqF.getD (.vStr [])) = true
                       then r.prereqF.getD (.vStr [])
                       else PyVal.vStr (stripWs dstr)) with
                  | error e =>
                    exfalso
                    simp [processCourseE, hcf, asStr, hce, hlev, hT, hD, hcred, hcred2,
                      hpp, except_bind_ok, except_bind_err, except_pure] at he
                  | ok ps =>
                    have he2 : processCourseE r = Except.ok (some
                        { code := normalize_course_code c, title := stripWs ts,
                          credits := q, description := stripWs dstr,
                          level := extract_level (normalize_course_code c),
                          department := ("COMP".toList), prerequisites := ps,
                          corequisites := r.coreqF.getD (.vList []),
                          exclusions := r.exclF.getD (.vList []) }) := by
                      simp [processCourseE, hcf, asStr, hce, hlev, hT, hD, hcred,
                        hcred2, hpp, except_bind_ok, except_bind_err, except_pure]
                    have hrec' : rec =
                        { code := normalize_course_code c, title := stripWs ts,
                          credits := q, description := stripWs dstr,
                          level := extract_level (normalize_course_code c),
                          department := ("COMP".toList), prerequisites := ps,
                          corequisites := r.coreqF.getD (.vList []),
                          exclusions := r.exclF.getD (.vList []) } := by
                      have hcmp := he.symm.trans he2
                      simpa using hcmp
                    constructor
                    · rw [hrec']
                    · have hps : rec.prerequisites = ps := by rw [hrec']
                      rw [hps]
                      exact parsePrereqVal_ok hpp
              | vNum q2 =>
                exfalso
                simp [processCourseE, hcf, asStr, hce, hlev, hT, hD,
                  except_bind_ok, except_bind_err, except_pure] at he
              | vNone =>
                exfalso
                simp [processCourseE, hcf, asStr, hce, hlev, hT, hD,
                  except_bind_ok, except_bind_err, except_pure] at he
              | vList l2 =>
                exfalso
                simp [processCourseE, hcf, asStr, hce, hlev, hT, hD,
                  except_bind_ok, except_bind_err, except_pure] at he
            | vNum q2 =>
              exfalso
              simp [processCourseE, hcf, asStr, hce, hlev, hT,
                except_bind_ok, except_bind_err, except_pure] at he
            | vNone =>
              exfalso
              simp [processCourseE, hcf, asStr, hce, hlev, hT,
                except_bind_ok, except_bind_err, except_pure] at he
            | vList l2 =>
              exfalso
              simp [processCourseE, hcf, asStr, hce, hlev, hT,
                except_bind_ok, except_bind_err, except_pure] at he
      | vNum q =>
        exfalso
        simp [processCourseE, hcf, asStr, except_bind_ok, except_bind_err] at he
      | vNone =>
        exfalso
        simp [processCourseE, hcf, asStr, except_bind_ok, except_bind_err] at he
      | vList l =>
        exfalso
        simp [processCourseE, hcf, asStr, except_bind_ok, except_bind_err] at he

/-- Codes on which the `COMP` pattern matched normalize to the canonical
shape. -/
theorem normalize_canon_of_match {c : Str}
    (h : (searchFirst compAt c).isSome = true) :
    canonShape (normalize_course_code c) = true := by
  cases hs : searchFirst compAt c with
  | none => rw [hs] at h; simp at h
  | some x =>
    obtain ⟨n, ds⟩ := x
    rcases searchFirst_some_drop hs with ⟨k, hk⟩
    rcases compAt_decomp hk with ⟨p, w, rest, -, -, -, hds, hdig, -⟩
    rw [normalize_course_code, hs]
    exact canonShape_comp hds hdig

/-- C5 (amended).  Every code in the prerequisite list of a batch record has
the canonical `<PREFIX> <4 digits>` shape; the record code itself is the
output of the normalizer on the raw code string, and it has the canonical
shape whenever the `COMP` pattern matched that string — but on the fallback
path (uppercased trimmed copy) the record code need not have the shape, so
the unconditional claim fails. -/
theorem c5_code_shape {rs : List RawCourse} {rec : CourseRecord}
    (h : rec ∈ processBatch rs) :
    (∀ p ∈ rec.prerequisites, canonShape p.code = true) ∧
    ∃ c, rec.code = normalize_course_code c ∧
      ((searchFirst compAt c).isSome = true → canonShape rec.code = true) := by
  rw [processBatch] at h
  rcases List.mem_filterMap.mp h with ⟨r, -, hr⟩
  rcases process_course_some_spec hr with ⟨c, -, hcode, hpre⟩
  constructor
  · intro p hp
    rcases hpre with hnil | ⟨t, ht⟩
    · rw [hnil] at hp
      simp at hp
    · rw [ht] at hp
      exact parse_prereq_canon hp
  · refine ⟨c, hcode, fun hm => ?_⟩
    rw [hcode]
    exact normalize_canon_of_match hm

/-- A sample raw entry whose code string matches the `COMP` pattern, and the
record it assembles to. -/
def c5raw : RawCourse := { codeF := some (.vStr ("comp1405".toList)) }

def c5rec : CourseRecord :=
  { code := ("COMP 1405".toList), title := [], credits := (1 / 2 : ℚ),
    description := [], level := 1000, department := ("COMP".toList),
    prerequisites := [], corequisites := PyVal.vList [],
    exclusions := PyVal.vList [] }

/-- A raw entry with code `garbage` goes through the fallback and lands in
the output batch with record code `GARBAGE`, which lacks the canonical
shape: the unconditional form of the claim is false. -/
theorem c5_counterexample :
    ((processBatch [{ codeF := some (.vStr ("garbage".toList)) }]).map
      (fun rec => canonShape rec.code)) = [false] := by
  decide

theorem c5_witness :
    c5rec ∈ processBatch [c5raw] ∧
    ((∀ p ∈ c5rec.prerequisites, canonShape p.code = true) ∧
     ∃ c, c5rec.code = normalize_course_code c ∧
       ((searchFirst compAt c).isSome = true → canonShape c5rec.code = true)) :=
  have hm : c5rec ∈ processBatch [c5raw] := by
    have h : processBatch [c5raw] = [c5rec] := by rfl
    rw [h]
    exact List.mem_singleton.mpr rfl
  ⟨hm, c5_code_shape hm⟩

/-! ## C3: the simple-disjunction path -/

/-- First-occurrence deduplication keeps every element that was not already
seen. -/
theorem keepFirstFrom_mem : ∀ {l seen : List Str} {c : Str},
    c ∈ l → c ∉ seen → c ∈ keepFirstFrom seen l := by
  intro l
  induction l with
  | nil => intro seen c h; simp at h
  | cons a as ih =>
    intro seen c hc hns
    rw [keepFirstFrom]
    by_cases hca : c = a
    · subst hca
      rw [if_neg hns]
      exact List.mem_cons_self _ _
    · have hcas : c ∈ as := by
        rcases List.mem_cons.mp hc with h | h
        · exact absurd h hca
        · exact h
      by_cases ha : a ∈ seen
      · rw [if_pos ha]
        exact ih hcas hns
      · rw [if_neg ha]
        refine List.mem_cons.mpr (Or.inr (ih hcas ?_))
        intro hmem
        rcases List.mem_cons.mp hmem with h | h
        · exact hca h
        · exact hns h

/-- C3.  On a cleaned span on which the un-parenthesized `COMP dddd or COMP
dddd` pattern matches and no parenthesized or-group occurs anywhere, every
parsed entry is tagged OR and every code occurrence anywhere in the span
appears among the output codes; concretely, `Prerequisite(s): COMP 1005 or
COMP 1405.` parses to COMP 1005 tagged OR at index 0 and COMP 1405 tagged OR
at index 1. -/
theorem c3_simple_or (s : Str) (h1 : hasSimpleOr s = true)
    (h2 : hasParenOr s = false) :
    (∀ e ∈ parseSpan s, e.logic = Logic.OR) ∧
    (∀ m ∈ codeMatches s,
      normalize_course_code (sliceStr s m.1 m.2) ∈ (parseSpan s).map Prereq.code) ∧
    orderIndexed (parse_prerequisites
        ("Prerequisite(s): COMP 1005 or COMP 1405.".toList)) =
      [(("COMP 1005".toList), Logic.OR, 0), (("COMP 1405".toList), Logic.OR, 1)] := by
  have hres : resolveSpan s =
      (codeMatches s).map
        (fun m => ⟨normalize_course_code (sliceStr s m.1 m.2), Logic.OR⟩) := by
    rw [resolveSpan, if_pos]
    exact ⟨h1, by simp [h2]⟩
  have hcodes : (parseSpan s).map Prereq.code =
      keepFirstFrom [] ((resolveSpan s).map Prereq.code) := by
    have := dedupGo_codes (resolveSpan s) [] []
    simpa [parseSpan, dedup] using this
  refine ⟨?_, ?_, by decide⟩
  · intro e he
    have hinv : DedupInv [] [] [] := by
      refine ⟨by simp, ?_, by simp, by simp⟩
      intro c L
      simp [alook]
    have hiff := dedupGo_logic (resolveSpan s) [] [] [] hinv e
      (by simpa [parseSpan, dedup] using he)
    have hec : e.code ∈ (parseSpan s).map Prereq.code :=
      List.mem_map.mpr ⟨e, he, rfl⟩
    rw [hcodes] at hec
    have hec2 : e.code ∈ (resolveSpan s).map Prereq.code := keepFirstFrom_sub hec
    rcases List.mem_map.mp hec2 with ⟨e', he', hce⟩
    have he'OR : e' = (⟨e.code, Logic.OR⟩ : Prereq) := by
      rw [hres] at he'
      rcases List.mem_map.mp he' with ⟨m, -, hme⟩
      rw [← hme]
      rw [← hme] at hce
      simp only at hce
      rw [← hce]
    have hiff2 : e.logic = Logic.OR ↔
        (⟨e.code, Logic.OR⟩ : Prereq) ∈ resolveSpan s := by
      simpa using hiff
    refine hiff2.mpr ?_
    rw [← he'OR]
    exact he'
  · intro m hm
    have hc : normalize_course_code (sliceStr s m.1 m.2) ∈
        (resolveSpan s).map Prereq.code := by
      rw [hres, List.map_map]
      exact List.mem_map.mpr ⟨m, hm, rfl⟩
    rw [hcodes]
    exact keepFirstFrom_mem hc (by simp)

theorem c3_witness :
    hasSimpleOr ("COMP 1005 or COMP 1405".toList) = true ∧
    hasParenOr ("COMP 1005 or COMP 1405".toList) = false ∧
    ((∀ e ∈ parseSpan ("COMP 1005 or COMP 1405".toList), e.logic = Logic.OR) ∧
     (∀ m ∈ codeMatches ("COMP 1005 or COMP 1405".toList),
       normalize_course_code
           (sliceStr ("COMP 1005 or COMP 1405".toList) m.1 m.2) ∈
         (parseSpan ("COMP 1005 or COMP 1405".toList)).map Prereq.code) ∧
     orderIndexed (parse_prerequisites
         ("Prerequisite(s): COMP 1005 or COMP 1405.".toList)) =
       [(("COMP 1005".toList), Logic.OR, 0),
        (("COMP 1405".toList), Logic.OR, 1)]) :=
  ⟨by decide, by decide,
    c3_simple_or ("COMP 1005 or COMP 1405".toList) (by decide) (by decide)⟩

/-! ## C2: parenthesized or-groups and OR tagging -/

/-- An or-group match consumes at least one character and stays inside the
input. -/
theorem orGroupAt_len : ∀ (l : Str) (n : Nat), orGroupAt l = some n →
    1 ≤ n ∧ n ≤ l.length := by
  intro l n h
  match l with
  | [] => exact absurd h (by simp [orGroupAt])
  | c :: rest =>
    rw [orGroupAt] at h
    by_cases hc : c = '('
    · rw [if_pos hc] at h
      by_cases hq : rest.findIdx (fun d => d = ')') < rest.length
      · rw [if_pos hq] at h
        by_cases ho : containsOr (rest.take (rest.findIdx (fun d => d = ')'))) = true
        · rw [if_pos ho] at h
          have hn : n = rest.findIdx (fun d => d = ')') + 2 := by
            simpa using h.symm
          subst hn
          simp only [List.length_cons]
          omega
        · rw [if_neg ho] at h
          exact absurd h (by simp)
      · rw [if_neg hq] at h
        exact absurd h (by simp)
    · rw [if_neg hc] at h
      exact absurd h (by simp)

/-- The or-groups of a span are pairwise disjoint, in scan order. -/
theorem groupsInfo_chain (s : Str) :
    List.Pairwise (fun g g' => g.2.1 ≤ g'.1) (groupsInfo s) := by
  have hbase := scanPF_chain orGroupAt_len s.length s 0 (Nat.le_refl _)
  rw [groupsInfo]
  rw [List.pairwise_map]
  exact hbase.imp (fun h => h)

/-- On pairwise-disjoint groups, the tag lookup returns `OR` exactly when the
group containing the position lists the code and lists more than one code
occurrence in total. -/
theorem lookupTag_OR_iff {pos : Nat} {code : Str} :
    ∀ {groups : List (Nat × Nat × List Str)},
      List.Pairwise (fun g g' => g.2.1 ≤ g'.1) groups →
      (lookupTag groups pos code = Logic.OR ↔
        ∃ g ∈ groups, g.1 ≤ pos ∧ pos < g.2.1 ∧ code ∈ g.2.2 ∧ 1 < g.2.2.length) := by
  intro groups
  induction groups with
  | nil =>
    intro _
    simp [lookupTag]
  | cons g rest ih =>
    intro hpw
    obtain ⟨gs, ge, codes⟩ := g
    rw [lookupTag]
    by_cases hcond : gs ≤ pos ∧ pos < ge ∧ code ∈ codes
    · rw [if_pos hcond]
      constructor
      · intro hOR
        by_cases hlen : 1 < codes.length
        · exact ⟨(gs, ge, codes), by simp, hcond.1, hcond.2.1, hcond.2.2, hlen⟩
        · rw [if_neg hlen] at hOR
          exact absurd hOR (by simp)
      · intro hex
        rcases hex with ⟨g', hg', h1, h2, h3, h4⟩
        rcases List.mem_cons.mp hg' with hg' | hg'
        · subst hg'
          simp only at h4
          rw [if_pos h4]
        · exfalso
          have hsep : ge ≤ g'.1 := (List.pairwise_cons.mp hpw).1 g' hg'
          omega
    · rw [if_neg hcond]
      rw [ih (List.pairwise_cons.mp hpw).2]
      constructor
      · intro hex
        rcases hex with ⟨g', hg', hrest⟩
        exact ⟨g', List.mem_cons.mpr (Or.inr hg'), hrest⟩
      · intro hex
        rcases hex with ⟨g', hg', h1, h2, h3, h4⟩
        rcases List.mem_cons.mp hg' with hg' | hg'
        · exfalso
          subst hg'
          simp only at h1 h2 h3
          exact hcond ⟨h1, h2, h3⟩
        · exact ⟨g', hg', h1, h2, h3, h4⟩

/-- Every general-path entry comes from a scanned code occurrence, with its
tag computed by the group lookup at that occurrence. -/
theorem gpGo_mem_full {s : Str} {groups : List (Nat × Nat × List Str)} :
    ∀ {ms : List (Nat × Nat)} {seen : List Str} {e : Prereq},
      e ∈ gpGo s groups ms seen →
      ∃ a b, (a, b) ∈ ms ∧ e.code = normalize_course_code (sliceStr s a b) ∧
        e.logic = lookupTag groups a e.code := by
  intro ms
  induction ms with
  | nil => intro seen e h; simp [gpGo] at h
  | cons m ms ih =>
    intro seen e h
    rw [gpGo] at h
    by_cases hseen : normalize_course_code (sliceStr s m.1 m.2) ∈ seen
    · rw [if_pos hseen] at h
      rcases ih h with ⟨a, b, hab, hcode, hlog⟩
      exact ⟨a, b, by simp [hab], hcode, hlog⟩
    · rw [if_neg hseen] at h
      rcases List.mem_cons.mp h with h' | h'
      · refine ⟨m.1, m.2, by simp, by rw [h'], ?_⟩
        rw [h']
      · rcases ih h' with ⟨a, b, hab, hcode, hlog⟩
        exact ⟨a, b, by simp [hab], hcode, hlog⟩

/-- C2 (amended).  Every general-path entry is anchored at a code occurrence
of the span, and it carries `OR` exactly when the parenthesized or-group
containing that occurrence lists its code and lists more than one code
occurrence in total — occurrences, not distinct codes: a group repeating one
code still forces `OR`, which refutes the distinct-count reading.  The
claimed concrete case stands: in `Prerequisite(s): COMP 2402 (or permission
of department).` the code COMP 2402 is tagged AND. -/
theorem c2_paren_group {s : Str} {e : Prereq} (he : e ∈ generalPath s) :
    (∃ a b, (a, b) ∈ codeMatches s ∧
      e.code = normalize_course_code (sliceStr s a b) ∧
      (e.logic = Logic.OR ↔ ∃ g ∈ groupsInfo s,
        g.1 ≤ a ∧ a < g.2.1 ∧ e.code ∈ g.2.2 ∧ 1 < g.2.2.length)) ∧
    parse_prerequisites
        ("Prerequisite(s): COMP 2402 (or permission of department).".toList) =
      [⟨("COMP 2402".toList), Logic.AND⟩] := by
  constructor
  · rw [generalPath] at he
    rcases gpGo_mem_full he with ⟨a, b, hab, hcode, hlog⟩
    refine ⟨a, b, hab, hcode, ?_⟩
    rw [hlog]
    exact lookupTag_OR_iff (groupsInfo_chain s)
  · decide

/-- A span whose single or-group repeats one code: one distinct code, two
occurrences, and the parser tags it `OR` — the distinct-count reading of the
claim fails. -/
theorem c2_counterexample :
    (groupsInfo ("(COMP 1405 or COMP 1405)".toList)).map
        (fun g => (g.2.2.dedup.length, g.2.2.length)) = [(1, 2)] ∧
    parse_prerequisites
        ("Prerequisite(s): (COMP 1405 or COMP 1405).".toList) =
      [⟨("COMP 1405".toList), Logic.OR⟩] := by
  decide

theorem c2_witness :
    (⟨("COMP 2402".toList), Logic.OR⟩ : Prereq) ∈
      generalPath ("COMP 1405, and (COMP 2402 or COMP 2404)".toList) ∧
    ((∃ a b, (a, b) ∈ codeMatches ("COMP 1405, and (COMP 2402 or COMP 2404)".toList) ∧
      (⟨("COMP 2402".toList), Logic.OR⟩ : Prereq).code =
        normalize_course_code
          (sliceStr ("COMP 1405, and (COMP 2402 or COMP 2404)".toList) a b) ∧
      ((⟨("COMP 2402".toList), Logic.OR⟩ : Prereq).logic = Logic.OR ↔
        ∃ g ∈ groupsInfo ("COMP 1405, and (COMP 2402 or COMP 2404)".toList),
          g.1 ≤ a ∧ a < g.2.1 ∧
          (⟨("COMP 2402".toList), Logic.OR⟩ : Prereq).code ∈ g.2.2 ∧
          1 < g.2.2.length)) ∧
     parse_prerequisites
         ("Prerequisite(s): COMP 2402 (or permission of department).".toList) =
       [⟨("COMP 2402".toList), Logic.AND⟩]) :=
  ⟨by decide, c2_paren_group (by decide)⟩
